import Mathlib

/-! # kmersGWAS — `YV_correlate_kmers_to_phenotype.cpp`

A shallow embedding of the phenotype loader `load_phenotypes_file` (source lines 54–67) and of
the driver `main` (source lines 69–142), together with the properties of the two that the
specification states.

Modelling decisions:

* **Input stream.**  `std::ifstream` is modelled by `ifstream`: the characters not yet read
  plus the two state bits the code can observe (`eofbit`, `failbit`).  `badbit` (a device
  error while reading) is outside the model.  The three stream operations the loader uses
  (`ignore`, `>> std::string`, `>> double`) follow the C++ standard's description of
  unformatted and formatted input ([istream.unformatted], [istream.formatted.reqmts],
  [string.io], [istream.formatted.arithmetic]); in particular every formatted extraction begins
  with a `sentry`, and when the sentry fails the target variable is left untouched.
* **Number parsing.**  `num_get` for `double` follows the C++11 rules as implemented by
  libstdc++ (the file header names gcc/g++ as its compiler): a scan that accumulates the
  longest prefix that can still be a decimal floating literal, a conversion that must consume
  the whole accumulated text, `0` stored on a failed conversion and `±DBL_MAX` on overflow.
* **Doubles.**  A `double` is modelled by the exact rational its decimal text denotes; the
  rounding to the nearest binary64 value is a function of that rational and is not modelled.
  The local `double value;` of line 60 is not initialised: `double.indeterminate` stands for
  its content until the first assignment.
* **Collaborators.**  `boost::program_options`, `kmer_multipleDB` and
  `load_kmer_and_score_raw_file` are not part of the source file.  The result of command-line
  parsing is an input of `main`; a collaborator call is recorded in a trace and may throw,
  as decided by the `collaborators` the program runs with.
-/

namespace CorrelateKmers

/-! ## Doubles -/

/-- Content of a C++ `double` object: not yet assigned, or a real value. -/
inductive double where
  | indeterminate : double
  | real (q : ℚ) : double
  deriving DecidableEq

/-- Value of the decimal literal `(-1)^neg * mant * 10^exp`. -/
def dec_val (neg : Bool) (mant : Nat) (exp : Int) : ℚ :=
  (if neg then -1 else 1) * (mant : ℚ) * (10 : ℚ) ^ exp

/-- Largest finite binary64 value, `0x1.fffffffffffffp+1023 = 2^1024 - 2^971`. -/
def DBL_MAX : ℚ :=
  0xFFFFFFFFFFFFF800000000000000000000000000000000000000000000000000000000000000000000000000000000000000000000000000000000000000000000000000000000000000000000000000000000000000000000000000000000000000000000000000000000000000000000000000000000000000000000000000

/-- Least magnitude that round-to-nearest-even carries to infinity: the midpoint
`2^1024 - 2^970` between `DBL_MAX` and `2^1024`. -/
def overflow_threshold : Nat :=
  0xFFFFFFFFFFFFFC00000000000000000000000000000000000000000000000000000000000000000000000000000000000000000000000000000000000000000000000000000000000000000000000000000000000000000000000000000000000000000000000000000000000000000000000000000000000000000000000000

/-- Whether `mant * 10^exp` is at least `overflow_threshold`, decided on integers. -/
def overflows (mant : Nat) (exp : Int) : Bool :=
  match exp with
  | Int.ofNat e => decide (overflow_threshold ≤ mant * 10 ^ e)
  | Int.negSucc e => decide (overflow_threshold * 10 ^ (e + 1) ≤ mant)

/-! ## Character classes -/

/-- The `isspace` of the "C" locale: space, `\t`, `\n`, `\v`, `\f`, `\r`. -/
def isspace (c : Char) : Bool :=
  c = ' ' || c = '\t' || c = '\n' || c = '\x0b' || c = '\x0c' || c = '\r'

/-- Decimal digit test. -/
def isdigit (c : Char) : Bool :=
  c = '0' || c = '1' || c = '2' || c = '3' || c = '4' ||
  c = '5' || c = '6' || c = '7' || c = '8' || c = '9'

/-- Value of a decimal digit character. -/
def digit_val (c : Char) : Nat := c.toNat - 48

/-- Value of a string of decimal digits, most significant first. -/
def digits_val (ds : List Char) : Nat := ds.foldl (fun a c => 10 * a + digit_val c) 0

/-! ## `num_get<char>::do_get` for `double` -/

/-- Main accumulation loop of the floating-point scan in the "C" locale.  `acc` is the text
accumulated so far (in order); the flags record whether a mantissa digit, the decimal point and
the exponent mark have been seen, and whether the exponent mark was the character just read
(the one place where a sign is accepted).  Returns the accumulated text and the unread
characters. -/
def scan_float (found_mantissa found_dec found_sci after_e : Bool) (acc : List Char) :
    List Char → List Char × List Char
  | [] => (acc, [])
  | c :: cs =>
    if after_e && (c = '+' || c = '-') then
      scan_float found_mantissa found_dec found_sci false (acc ++ [c]) cs
    else if isdigit c then scan_float true found_dec found_sci false (acc ++ [c]) cs
    else if c = '.' && !found_dec && !found_sci then
      scan_float found_mantissa true found_sci false (acc ++ ['.']) cs
    else if (c = 'e' || c = 'E') && !found_sci && found_mantissa then
      scan_float found_mantissa found_dec true true (acc ++ ['e']) cs
    else (acc, c :: cs)

/-- Optional sign at the front of the scan: the accumulated sign and the unread characters. -/
def scan_sign : List Char → List Char × List Char
  | [] => ([], [])
  | c :: cs => if c = '+' || c = '-' then ([c], cs) else ([], c :: cs)

/-- Floating-point scan: an optional sign, leading zeros collapsed to a single `0`, then
`scan_float`.  Returns the accumulated text and the unread characters. -/
def extract_float (s : List Char) : List Char × List Char :=
  let signed := scan_sign s
  let zeros := signed.2.takeWhile (fun c => c = '0')
  let rest := signed.2.dropWhile (fun c => c = '0')
  if zeros.isEmpty then scan_float false false false false signed.1 rest
  else scan_float true false false false (signed.1 ++ ['0']) rest

/-- Split an optional sign off the front: `(is_negative, rest)`. -/
def take_sign : List Char → Bool × List Char
  | '-' :: cs => (true, cs)
  | '+' :: cs => (false, cs)
  | cs => (false, cs)

/-- Exponent part of a decimal floating literal, which must be the whole of the given text:
nothing, or `e`, an optional sign and at least one digit. -/
def parse_exponent : List Char → Option Int
  | [] => some 0
  | 'e' :: cs =>
    let s := take_sign cs
    if s.2.isEmpty || !s.2.all isdigit then none
    else some (if s.1 then -(digits_val s.2 : Int) else (digits_val s.2 : Int))
  | _ => none

/-- Conversion `strtod` of the accumulated text, required to consume all of it: sign,
integer digits, optional point and fraction digits (at least one digit in all), optional
exponent.  Returns sign, decimal mantissa and decimal exponent, or `none` when the text is not
wholly a decimal floating literal. -/
def strtod_all (xtrc : List Char) : Option (Bool × Nat × Int) :=
  let s := take_sign xtrc
  let ip := s.2.takeWhile isdigit
  let r1 := s.2.dropWhile isdigit
  let fp := match r1 with
    | '.' :: r => r.takeWhile isdigit
    | _ => []
  let r2 := match r1 with
    | '.' :: r => r.dropWhile isdigit
    | r => r
  if ip.isEmpty && fp.isEmpty then none
  else match parse_exponent r2 with
    | none => none
    | some e => some (s.1, digits_val (ip ++ fp), e - (fp.length : Int))

/-- Outcome of `num_get::do_get` for a `double`: the value stored, whether `failbit` is
raised, and the unread characters. -/
structure num_get_result where
  value : ℚ
  failbit : Bool
  rest : List Char

/-- The function `num_get<char>::do_get(..., double&)`: scan, convert, and on a failed
conversion store `0`, on overflow store `±DBL_MAX`, raising `failbit` in both cases. -/
def num_get (s : List Char) : num_get_result :=
  let sc := extract_float s
  match strtod_all sc.1 with
  | none => ⟨0, true, sc.2⟩
  | some (neg, mant, exp) =>
    if overflows mant exp then ⟨if neg then -DBL_MAX else DBL_MAX, true, sc.2⟩
    else ⟨dec_val neg mant exp, false, sc.2⟩

/-! ## The input stream -/

/-- An input file stream: the unread characters and the state bits. -/
structure ifstream where
  buf : List Char
  eofbit : Bool
  failbit : Bool

/-- The call `std::ifstream fin(filename)`: `none` is a file that cannot be opened, which
leaves the stream with `failbit` set. -/
def ifstream.open_file : Option (List Char) → ifstream
  | none => ⟨[], false, true⟩
  | some content => ⟨content, false, false⟩

/-- The member `good()`: no state bit is set. -/
def ifstream.good (s : ifstream) : Bool := !s.eofbit && !s.failbit

/-- The member `fail()`; `while (fin >> word)` tests its negation. -/
def ifstream.fail (s : ifstream) : Bool := s.failbit

/-- The class `istream::sentry`: fails (raising `failbit`) on a stream that is not good;
otherwise, unless `noskipws`, discards leading whitespace and fails (raising `eofbit` and
`failbit`) when that reaches the end of the file.  Returns the stream and whether the sentry
is ok. -/
def sentry (s : ifstream) (noskipws : Bool) : ifstream × Bool :=
  if s.good then
    if noskipws then (s, true)
    else
      let rest := s.buf.dropWhile isspace
      if rest.isEmpty then (⟨[], true, true⟩, false)
      else (⟨rest, s.eofbit, s.failbit⟩, true)
  else (⟨s.buf, s.eofbit, true⟩, false)

/-- Characters after the first `delim`, or `none` when there is no `delim`. -/
def after_delim (delim : Char) : List Char → Option (List Char)
  | [] => none
  | c :: cs => if c = delim then some cs else after_delim delim cs

/-- The call `fin.ignore(numeric_limits<streamsize>::max(), delim)`: discards characters up to
and including the first `delim`; raises `eofbit` when the file ends first. -/
def ifstream.ignore (s : ifstream) (delim : Char) : ifstream :=
  match sentry s true with
  | (s1, false) => s1
  | (s1, true) =>
    match after_delim delim s1.buf with
    | some rest => ⟨rest, s1.eofbit, s1.failbit⟩
    | none => ⟨[], true, s1.failbit⟩

/-- The call `fin >> word` for a `std::string`: after the sentry, stores the characters up to
the next whitespace or the end of the file (raising `eofbit` there).  When the sentry fails,
`word` keeps its content. -/
def ifstream.extract_string (s : ifstream) (word : String) : ifstream × String :=
  match sentry s false with
  | (s1, false) => (s1, word)
  | (s1, true) =>
    let w := s1.buf.takeWhile (fun c => !isspace c)
    let rest := s1.buf.dropWhile (fun c => !isspace c)
    (⟨rest, s1.eofbit || rest.isEmpty, s1.failbit || w.isEmpty⟩, String.mk w)

/-- The call `fin >> value` for a `double`: after the sentry, `num_get` stores a value and may
raise `failbit`; `eofbit` is raised when the scan reached the end of the file.  When the sentry
fails, `value` keeps its content. -/
def ifstream.extract_double (s : ifstream) (value : double) : ifstream × double :=
  match sentry s false with
  | (s1, false) => (s1, value)
  | (s1, true) =>
    let r := num_get s1.buf
    (⟨r.rest, s1.eofbit || r.rest.isEmpty, s1.failbit || r.failbit⟩, double.real r.value)

/-! ## `load_phenotypes_file` -/

/-- The type `phenotype_list` (line 45): accession names and their phenotype values. -/
abbrev phenotype_list := List String × List double

/-- The loop of lines 61–65, with the local variables `fin`, `word`, `value` and `p_list`.
The first argument bounds the number of iterations; `none` is returned only when the bound is
used up, which does not happen when it exceeds the number of unread characters
(`read_pairs_finishes`). -/
def read_pairs : Nat → ifstream → String → double → phenotype_list → Option phenotype_list
  | 0, _, _, _, _ => none
  | n + 1, fin, word, value, p_list =>
    let r1 := fin.extract_string word
    if r1.1.fail then some p_list
    else
      let r2 := r1.1.extract_double value
      read_pairs n r2.1 r1.2 r2.2 (p_list.1 ++ [r1.2], p_list.2 ++ [r2.2])

/-- What the program can see of the files on disk: the content of the file of a given name,
or `none` when that file cannot be opened. -/
abbrev file_system := String → Option (List Char)

/-- The function `load_phenotypes_file` (lines 54–67), reading the file `filename` of the file
system `fs`.  Every iteration of the loop consumes a character, so the number of unread
characters bounds the number of iterations: the result is never `none`
(`load_phenotypes_file_finishes`).  The function has no way to report an error: it neither
throws nor tests whether the file was opened. -/
def load_phenotypes_file (fs : file_system) (filename : String) : Option phenotype_list :=
  let fin := (ifstream.open_file (fs filename)).ignore '\n'
  read_pairs (fin.buf.length + 1) fin "" double.indeterminate ([], [])

/-! ## `main` -/

/-- What a `catch` clause of `main` can tell about a thrown object: derived from
`std::exception` (with its `what()`), or anything else. -/
inductive thrown where
  | std_exception (what : String) : thrown
  | unknown : thrown
  deriving DecidableEq

/-- The `variables_map` after `po::store` and `po::notify`, before defaults: for each option
of the `options_description` of lines 75–83 whether and with which value it was given. -/
structure variables_map where
  help : Bool
  phenotype_file : Option String
  DBs_path : Option String
  kmers_file : Option String
  deriving DecidableEq

/-- Observable steps of `main`: console output and calls of collaborators, with the arguments
the source passes. -/
inductive event where
  | cout_desc : event
  | cout (text : String) : event
  | cerr (text : String) : event
  | kmer_multipleDB (DBs_path : String) (accessions : List String) (kmers_file : String) : event
  | load_kmer_and_score_raw_file (path : String) : event
  | load_kmers : event
  | get_hashtable_size : event
  | output_plink_bed_file (base_name : String) : event
  | output_kmers_textual : event
  deriving DecidableEq

/-- Whether the event is a call of a collaborator (as opposed to console output). -/
def event.is_call : event → Bool
  | event.cout_desc => false
  | event.cout _ => false
  | event.cerr _ => false
  | _ => true

/-- Behaviour of the collaborators: given the steps so far and the call being made, whether
the call throws, and what `get_hashtable_size` returns. -/
structure collaborators where
  throws : List event → event → Option thrown
  hashtable_size : List event → Nat

/-- How control leaves the `try` block of `main`. -/
inductive flow where
  | returned (code : Int) : flow
  | fell_through : flow
  | threw (e : thrown) : flow
  deriving DecidableEq

/-- One collaborator call inside the `try` block: record it, leave the block if it throws,
otherwise continue with `k`. -/
def call (env : collaborators) (trace : List event) (c : event)
    (k : List event → List event × flow) : List event × flow :=
  match env.throws trace c with
  | some e => (trace ++ [c], flow.threw e)
  | none => k (trace ++ [c])

/-- Default of the option `DBs_path` (line 79). -/
def default_DBs_path : String := "/tmp/global2/yvoichek/kmer_counts/"

/-- Default of the option `kmers_file` (line 81). -/
def default_kmers_file : String := "order_kmers_appear_more_than_once"

/-- Path given to `load_kmer_and_score_raw_file` (line 125). -/
def raw_file_path : String :=
  "/ebio/abt6_projects9/1001G_1001T_comparison/code/k_mer_clusters/acc_kmer_counts/correlate_phenotype/temp_check1.bin"

/-- The `try` block of `main` (lines 73–133).  `parsed` is the outcome of building the
options description and parsing the command line (lines 75–87): a `variables_map`, or the
exception thrown. -/
def main_try (fs : file_system) (env : collaborators) (parsed : Except thrown variables_map) :
    Option (List event × flow) :=
  match parsed with
  | Except.error e => some ([], flow.threw e)
  | Except.ok vm =>
    if vm.help then some ([event.cout_desc], flow.returned 0)
    else
      match vm.phenotype_file with
      | none => some ([event.cout "Need to specify the phenotype file\n"], flow.returned 1)
      | some filename =>
        let t0 := [event.cerr ("phenotype file: " ++ filename ++ ".\n")]
        match load_phenotypes_file fs filename with
        | none => none
        | some p_list =>
          some <|
          call env t0 (event.kmer_multipleDB (vm.DBs_path.getD default_DBs_path) p_list.1
            (vm.kmers_file.getD default_kmers_file)) fun t1 =>
          call env t1 (event.load_kmer_and_score_raw_file raw_file_path) fun t2 =>
          call env t2 event.load_kmers fun t3 =>
          call env t3 event.get_hashtable_size fun t4 =>
          let t5 := t4 ++ [event.cerr ("loaded kmers enriched (hashtable size = " ++
            toString (env.hashtable_size t3) ++ ")\n")]
          call env t5 (event.output_plink_bed_file "plink_test1") fun t6 =>
          call env t6 event.output_kmers_textual fun t7 =>
          (t7, flow.fell_through)

/-- What a run of `main` shows: the steps taken and the exit code. -/
structure outcome where
  trace : List event
  exit_code : Int
  deriving DecidableEq

/-- The function `main` (lines 69–142): the `try` block, the handler of lines 134–137, which
returns `1`, the handler of lines 138–140, which has no `return`, and the final `return 0` of
line 141.  The result is never `none` (`main_finishes`). -/
def main (fs : file_system) (env : collaborators) (parsed : Except thrown variables_map) :
    Option outcome :=
  match main_try fs env parsed with
  | none => none
  | some (trace, flow.returned code) => some ⟨trace, code⟩
  | some (trace, flow.fell_through) => some ⟨trace, 0⟩
  | some (trace, flow.threw (thrown.std_exception what)) =>
    some ⟨trace ++ [event.cerr ("error: " ++ what ++ "\n")], 1⟩
  | some (trace, flow.threw thrown.unknown) =>
    some ⟨trace ++ [event.cerr "Exception of unknown type!\n"], 0⟩

/-! ## Vocabulary of the statements and example data -/

/-- Every character is whitespace. -/
def is_blank (l : List Char) : Prop := ∀ c ∈ l, isspace c = true

/-- A whitespace-delimited token: not empty and free of whitespace. -/
def is_word (l : List Char) : Prop := l ≠ [] ∧ ∀ c ∈ l, isspace c = false

/-- The text is empty or begins with whitespace: what may follow a token. -/
def ends_token (l : List Char) : Prop := l = [] ∨ ∃ c cs, l = c :: cs ∧ isspace c = true

/-- Whether the floating-point scan can accept the character in some state. -/
def float_char (c : Char) : Bool :=
  isdigit c || c = '+' || c = '-' || c = '.' || c = 'e' || c = 'E'

/-- The token, read by `num_get` on its own, is consumed to its end and yields `v` without
raising `failbit`: the token is the text of the `double` value `v`. -/
def reads_as (tok : List Char) (v : ℚ) : Prop := num_get tok = ⟨v, false, []⟩

/-- Every character is a decimal digit. -/
def all_digits (l : List Char) : Prop := ∀ c ∈ l, isdigit c = true

/-- The point and the fraction digits, as text. -/
def frac_text : Option (List Char) → List Char
  | none => []
  | some f => '.' :: f

/-- Integer digits as the scan accumulates them: leading zeros collapsed to one `0`. -/
def collapse_zeros (ip : List Char) : List Char :=
  (if (ip.takeWhile (fun c => c = '0')).isEmpty then [] else ['0']) ++
    ip.dropWhile (fun c => c = '0')

/-- Fraction digits, none when there is no point. -/
def frac_digits : Option (List Char) → List Char
  | none => []
  | some f => f

/-- One (identifier, number) pair as it stands in the file: the whitespace before the
identifier, the identifier, the whitespace between the two, the text of the number, and the
value of the number. -/
structure entry where
  pre : List Char
  id : List Char
  sep : List Char
  num : List Char
  val : ℚ

/-- Text of a pair. -/
def entry.text (e : entry) : List Char := e.pre ++ e.id ++ e.sep ++ e.num

/-- Text of a sequence of pairs. -/
def body : List entry → List Char
  | [] => []
  | e :: es => e.text ++ body es

/-- The pair is well formed: blanks where blanks belong, a whitespace-free identifier, at
least one blank between identifier and number, and a number text that reads as `val`. -/
def entry.ok (e : entry) : Prop :=
  is_blank e.pre ∧ is_word e.id ∧ is_blank e.sep ∧ e.sep ≠ [] ∧ reads_as e.num e.val

/-- Every pair but the first is preceded by whitespace (the first may directly follow the
newline that ends the header). -/
def separated (es : List entry) : Prop := ∀ e ∈ es.tail, e.pre ≠ []

/-- Identifiers of a sequence of pairs, as the strings the loader stores. -/
def names (es : List entry) : List String := es.map fun e => String.mk e.id

/-- Values of a sequence of pairs. -/
def values (es : List entry) : List double := es.map fun e => double.real e.val

/-- Content of the variable `value` after the pairs `es` have been read, when it held `v`
before. -/
def last_value (v : double) (es : List entry) : double :=
  match es.getLast? with
  | none => v
  | some e => double.real e.val

/-- What follows each number of `es`, when `tail` follows the last one, is the end of the
file or whitespace. -/
def followed : List entry → List Char → Prop
  | [], _ => True
  | _ :: es, tail => ends_token (body es ++ tail) ∧ followed es tail

/-- Nothing at the front of the text converts to a number: the scan accumulates a text that
is not a decimal floating literal. -/
def cannot_read (junk : List Char) : Prop := strtod_all (extract_float junk).1 = none

/-- The text begins with a character that is not whitespace. -/
def starts_token (l : List Char) : Prop := ∃ c cs, l = c :: cs ∧ isspace c = false

/-- A file system holding one file. -/
def single_file (name : String) (content : String) : file_system :=
  fun n => if n = name then some content.toList else none

/-- The phenotype file of the specification's end-to-end scenario. -/
def scenario_fs : file_system :=
  single_file "phenotypes.txt" "accession_id\tphenotype_value\nA 1.0\nB 1.0\nC 0.0\nD 0.0\n"

/-- The four pairs of `scenario_fs`. -/
def scenario_entries : List entry :=
  [⟨[], ['A'], [' '], ['1', '.', '0'], 1⟩, ⟨['\n'], ['B'], [' '], ['1', '.', '0'], 1⟩,
   ⟨['\n'], ['C'], [' '], ['0', '.', '0'], 0⟩, ⟨['\n'], ['D'], [' '], ['0', '.', '0'], 0⟩]

/-- A phenotype file whose second numeric field is not a number. -/
def malformed_fs : file_system :=
  single_file "bad.txt" "id value\nA 1.0\nB abc\nC 0.0\n"

/-- A phenotype file that ends right after an identifier. -/
def cut_fs : file_system := single_file "cut.txt" "id value\nA 1.5\nB"

/-- A phenotype file that names the same accession twice. -/
def dup_fs : file_system := single_file "dup.txt" "id value\nA 1.0\nA 0.0\n"

/-- A phenotype file without any newline. -/
def one_line_fs : file_system := single_file "one.txt" "A 1.0 B 0.0"

/-- Collaborators that never throw, with a hash table of the given size. -/
def quiet_env (size : Nat) : collaborators := ⟨fun _ _ => none, fun _ => size⟩

/-- Collaborators of which the constructor of `kmer_multipleDB` throws an object that is not
derived from `std::exception`. -/
def odd_throw_env : collaborators :=
  ⟨fun _ c => match c with
    | event.kmer_multipleDB _ _ _ => some thrown.unknown
    | _ => none,
   fun _ => 0⟩

/-- The phenotype file of `scenario_fs` with other values for the same accessions. -/
def other_values_fs : file_system :=
  single_file "phenotypes.txt" "accession_id\tphenotype_value\nA 0.5\nB 2\nC -3e1\nD 4.25\n"

/-- The steps of a run in which every call succeeds. -/
def full_trace (filename DBs_path kmers_file : String) (accessions : List String)
    (size : Nat) : List event :=
  [event.cerr ("phenotype file: " ++ filename ++ ".\n"),
   event.kmer_multipleDB DBs_path accessions kmers_file,
   event.load_kmer_and_score_raw_file raw_file_path,
   event.load_kmers,
   event.get_hashtable_size,
   event.cerr ("loaded kmers enriched (hashtable size = " ++ toString size ++ ")\n"),
   event.output_plink_bed_file "plink_test1",
   event.output_kmers_textual]

/-- The continuation keeps the steps taken so far. -/
def grows (k : List event → List event × flow) : Prop := ∀ t x, x ∈ t → x ∈ (k t).1

/-- Options of a run on `phenotypes.txt` with every other option left to its default. -/
def scenario_vm : variables_map := ⟨false, some "phenotypes.txt", none, none⟩

/-- Exponent part of a decimal floating literal: the mark `e` or `E`, an optional sign
(`some true` is `-`, `some false` is `+`) and the digits. -/
structure exponent_part where
  upper : Bool
  sign : Option Bool
  digits : List Char

/-- A decimal floating literal in its parts: an optional sign (`some true` is `-`,
`some false` is `+`), the integer digits, the fraction digits when there is a point, and the
exponent part when there is one. -/
structure decimal where
  sign : Option Bool
  int_digits : List Char
  frac : Option (List Char)
  exp : Option exponent_part

/-- Text of an optional sign. -/
def sign_text : Option Bool → List Char
  | none => []
  | some false => ['+']
  | some true => ['-']

/-- Text of an optional exponent part. -/
def exp_text : Option exponent_part → List Char
  | none => []
  | some e => (if e.upper then 'E' else 'e') :: (sign_text e.sign ++ e.digits)

/-- Value of an optional exponent part. -/
def exp_value : Option exponent_part → Int
  | none => 0
  | some e => if e.sign = some true then -(digits_val e.digits : Int) else digits_val e.digits

/-- Text of the literal. -/
def decimal.text (d : decimal) : List Char :=
  sign_text d.sign ++ d.int_digits ++ frac_text d.frac ++ exp_text d.exp

/-- The literal is well formed: digits where digits belong, at least one digit before the
exponent part, and at least one digit in the exponent part. -/
def decimal.well_formed (d : decimal) : Prop :=
  all_digits d.int_digits ∧ all_digits (frac_digits d.frac) ∧
  (d.int_digits ≠ [] ∨ frac_digits d.frac ≠ []) ∧
  ∀ e, d.exp = some e → all_digits e.digits ∧ e.digits ≠ []

/-- Decimal mantissa of the literal: its integer and fraction digits read as one number. -/
def decimal.mantissa (d : decimal) : Nat := digits_val (d.int_digits ++ frac_digits d.frac)

/-- Decimal exponent of the literal once the point is moved behind the fraction digits. -/
def decimal.exponent (d : decimal) : Int :=
  exp_value d.exp - ((frac_digits d.frac).length : Int)

/-- The real number the literal denotes. -/
def decimal.value (d : decimal) : ℚ :=
  (if d.sign = some true then -1 else 1) * (d.mantissa : ℚ) * (10 : ℚ) ^ d.exponent

/-- The literal is within the range of `double`: its magnitude is below `2^1024 - 2^970`, the
least magnitude that rounds to infinity. -/
def decimal.in_range (d : decimal) : Prop := |d.value| < 2 ^ 1024 - 2 ^ 970

/-- The exponent part as the scan accumulates it: the mark in lower case. -/
def exp_scanned : Option exponent_part → List Char
  | none => []
  | some e => 'e' :: (sign_text e.sign ++ e.digits)

/-- The text is empty or begins with a point or an exponent mark. -/
def starts_mark (l : List Char) : Prop :=
  l = [] ∨ ∃ c cs, l = c :: cs ∧ (c = '.' ∨ c = 'e' ∨ c = 'E')

/-- Whether the optional sign is a minus. -/
def is_minus : Option Bool → Bool
  | some true => true
  | _ => false

/-- The text does not begin with a sign. -/
def no_sign_head (l : List Char) : Prop := ∀ c cs, l = c :: cs → c ≠ '+' ∧ c ≠ '-'

/-- The pair is well formed, and its number is a decimal floating literal within the range of
`double` with `val` the real number it denotes. -/
def entry.literal_ok (e : entry) : Prop :=
  is_blank e.pre ∧ is_word e.id ∧ is_blank e.sep ∧ e.sep ≠ [] ∧
  ∃ d : decimal, d.well_formed ∧ d.in_range ∧ e.num = d.text ∧ e.val = d.value

/-- A phenotype file whose first number is beyond the range of `double`. -/
def big_fs : file_system := single_file "big.txt" "h\nA 1e309\nB 2\nC 3\n"

/-- The literal `1e309`. -/
def big_literal : decimal := ⟨none, ['1'], none, some ⟨false, none, ['3', '0', '9']⟩⟩

/-! ## Lemmas -/

theorem DBL_MAX_eq : DBL_MAX = 2 ^ 1024 - 2 ^ 971 := by
  unfold DBL_MAX
  norm_num

theorem overflow_threshold_eq : overflow_threshold + 2 ^ 970 = 2 ^ 1024 := by
  unfold overflow_threshold
  norm_num

theorem length_dropWhile_le (p : Char → Bool) (l : List Char) :
    (l.dropWhile p).length ≤ l.length :=
  (List.dropWhile_sublist p).length_le

theorem dropWhile_blank_append (l t : List Char) (hl : is_blank l) :
    (l ++ t).dropWhile isspace = t.dropWhile isspace := by
  induction l with
  | nil => rfl
  | cons c cs ih =>
    have hc : isspace c = true := hl c (List.mem_cons_self _ _)
    have hcs : is_blank cs := fun x hx => hl x (List.mem_cons_of_mem _ hx)
    simp [List.dropWhile_cons, hc, ih hcs]

theorem dropWhile_isspace_word (w t : List Char) (hw : is_word w) :
    (w ++ t).dropWhile isspace = w ++ t := by
  obtain ⟨hne, hall⟩ := hw
  cases w with
  | nil => exact absurd rfl hne
  | cons c cs =>
    have hc : isspace c = false := hall c (List.mem_cons_self _ _)
    simp [List.dropWhile_cons, hc]

theorem takeWhile_word (w t : List Char) (hw : ∀ c ∈ w, isspace c = false) (ht : ends_token t) :
    (w ++ t).takeWhile (fun c => !isspace c) = w := by
  induction w with
  | nil =>
    rcases ht with rfl | ⟨c, cs, rfl, hc⟩
    · rfl
    · simp [List.takeWhile_cons, hc]
  | cons c cs ih =>
    have hc : isspace c = false := hw c (List.mem_cons_self _ _)
    have hcs : ∀ x ∈ cs, isspace x = false := fun x hx => hw x (List.mem_cons_of_mem _ hx)
    simp [List.takeWhile_cons, hc, ih hcs]

theorem dropWhile_word (w t : List Char) (hw : ∀ c ∈ w, isspace c = false) (ht : ends_token t) :
    (w ++ t).dropWhile (fun c => !isspace c) = t := by
  induction w with
  | nil =>
    rcases ht with rfl | ⟨c, cs, rfl, hc⟩
    · rfl
    · simp [List.dropWhile_cons, hc]
  | cons c cs ih =>
    have hc : isspace c = false := hw c (List.mem_cons_self _ _)
    have hcs : ∀ x ∈ cs, isspace x = false := fun x hx => hw x (List.mem_cons_of_mem _ hx)
    simp [List.dropWhile_cons, hc, ih hcs]

theorem after_delim_append (d : Char) (h r : List Char) (hh : d ∉ h) :
    after_delim d (h ++ d :: r) = some r := by
  induction h with
  | nil => simp [after_delim]
  | cons c cs ih =>
    have hc : c ≠ d := fun e => hh (e ▸ List.mem_cons_self _ _)
    have hcs : d ∉ cs := fun hx => hh (List.mem_cons_of_mem _ hx)
    simp [after_delim, hc, ih hcs]

theorem after_delim_none (d : Char) (s : List Char) (hs : d ∉ s) : after_delim d s = none := by
  induction s with
  | nil => rfl
  | cons c cs ih =>
    have hc : c ≠ d := fun e => hs (e ▸ List.mem_cons_self _ _)
    have hcs : d ∉ cs := fun hx => hs (List.mem_cons_of_mem _ hx)
    simp [after_delim, hc, ih hcs]

theorem after_delim_length (d : Char) (s r : List Char) (h : after_delim d s = some r) :
    r.length ≤ s.length := by
  induction s with
  | nil => simp [after_delim] at h
  | cons c cs ih =>
    simp only [after_delim] at h
    split at h
    · cases h; simp
    · have := ih h; simp; omega

theorem scan_float_length (a b c d : Bool) (acc s : List Char) :
    (scan_float a b c d acc s).2.length ≤ s.length := by
  induction s generalizing a b c d acc with
  | nil => simp [scan_float]
  | cons x xs ih =>
    simp only [scan_float]
    split
    · exact Nat.le_succ_of_le (ih _ _ _ _ _)
    · split
      · exact Nat.le_succ_of_le (ih _ _ _ _ _)
      · split
        · exact Nat.le_succ_of_le (ih _ _ _ _ _)
        · split
          · exact Nat.le_succ_of_le (ih _ _ _ _ _)
          · exact Nat.le_refl _

theorem scan_sign_length (s : List Char) : (scan_sign s).2.length ≤ s.length := by
  cases s with
  | nil => simp [scan_sign]
  | cons c cs => simp only [scan_sign]; split <;> simp

theorem extract_float_length (s : List Char) : (extract_float s).2.length ≤ s.length := by
  have key : ∀ a acc, (scan_float a false false false acc
      ((scan_sign s).2.dropWhile (fun c => c = '0'))).2.length ≤ s.length := fun a acc =>
    Nat.le_trans (scan_float_length _ _ _ _ _ _)
      (Nat.le_trans (length_dropWhile_le _ _) (scan_sign_length s))
  unfold extract_float
  dsimp only
  split
  · exact key _ _
  · exact key _ _

theorem num_get_length (s : List Char) : (num_get s).rest.length ≤ s.length := by
  unfold num_get
  dsimp only
  split
  · exact extract_float_length s
  · split <;> exact extract_float_length s

theorem extract_string_not_good (fin : ifstream) (w : String) (hg : fin.good = false) :
    fin.extract_string w = (⟨fin.buf, fin.eofbit, true⟩, w) := by
  simp [ifstream.extract_string, sentry, hg]

theorem extract_string_at_end (fin : ifstream) (w : String) (hg : fin.good = true)
    (he : fin.buf.dropWhile isspace = []) :
    fin.extract_string w = (⟨[], true, true⟩, w) := by
  simp [ifstream.extract_string, sentry, hg, he]

theorem extract_string_token (fin : ifstream) (w : String) (hg : fin.good = true)
    (he : fin.buf.dropWhile isspace ≠ []) :
    fin.extract_string w =
      (⟨(fin.buf.dropWhile isspace).dropWhile (fun c => !isspace c),
        fin.eofbit || ((fin.buf.dropWhile isspace).dropWhile (fun c => !isspace c)).isEmpty,
        fin.failbit || ((fin.buf.dropWhile isspace).takeWhile (fun c => !isspace c)).isEmpty⟩,
       String.mk ((fin.buf.dropWhile isspace).takeWhile (fun c => !isspace c))) := by
  simp [ifstream.extract_string, sentry, hg, he]

theorem extract_double_not_good (fin : ifstream) (v : double) (hg : fin.good = false) :
    fin.extract_double v = (⟨fin.buf, fin.eofbit, true⟩, v) := by
  simp [ifstream.extract_double, sentry, hg]

theorem extract_double_at_end (fin : ifstream) (v : double) (hg : fin.good = true)
    (he : fin.buf.dropWhile isspace = []) :
    fin.extract_double v = (⟨[], true, true⟩, v) := by
  simp [ifstream.extract_double, sentry, hg, he]

theorem extract_double_token (fin : ifstream) (v : double) (hg : fin.good = true)
    (he : fin.buf.dropWhile isspace ≠ []) :
    fin.extract_double v =
      (⟨(num_get (fin.buf.dropWhile isspace)).rest,
        fin.eofbit || (num_get (fin.buf.dropWhile isspace)).rest.isEmpty,
        fin.failbit || (num_get (fin.buf.dropWhile isspace)).failbit⟩,
       double.real (num_get (fin.buf.dropWhile isspace)).value) := by
  simp [ifstream.extract_double, sentry, hg, he]

theorem extract_double_length (fin : ifstream) (v : double) :
    (fin.extract_double v).1.buf.length ≤ fin.buf.length := by
  by_cases hg : fin.good = true
  · by_cases he : fin.buf.dropWhile isspace = []
    · simp [extract_double_at_end fin v hg he]
    · rw [extract_double_token fin v hg he]
      exact Nat.le_trans (num_get_length _) (length_dropWhile_le _ _)
  · simp [extract_double_not_good fin v (by simpa using hg)]

theorem extract_string_length (fin : ifstream) (w : String)
    (h : (fin.extract_string w).1.fail = false) :
    (fin.extract_string w).1.buf.length < fin.buf.length := by
  by_cases hg : fin.good = true
  · by_cases he : fin.buf.dropWhile isspace = []
    · simp [extract_string_at_end fin w hg he, ifstream.fail] at h
    · rw [extract_string_token fin w hg he] at h ⊢
      simp only [ifstream.fail, Bool.or_eq_false_iff] at h
      have h1 := List.takeWhile_append_dropWhile (fun c => !isspace c) (fin.buf.dropWhile isspace)
      have h2 := congrArg List.length h1
      rw [List.length_append] at h2
      have h3 : 0 < (List.takeWhile (fun c => !isspace c) (fin.buf.dropWhile isspace)).length := by
        cases hh : List.takeWhile (fun c => !isspace c) (fin.buf.dropWhile isspace) with
        | nil => rw [hh] at h; simp at h
        | cons _ _ => simp
      have h4 := length_dropWhile_le isspace fin.buf
      show (List.dropWhile (fun c => !isspace c) (fin.buf.dropWhile isspace)).length < _
      omega
  · simp [extract_string_not_good fin w (by simpa using hg), ifstream.fail] at h

/-- With more iterations allowed than there are unread characters, the loop finishes. -/
theorem read_pairs_finishes (n : Nat) (fin : ifstream) (w : String) (v : double)
    (p : phenotype_list) (h : fin.buf.length < n) : ∃ r, read_pairs n fin w v p = some r := by
  induction n generalizing fin w v p with
  | zero => exact absurd h (Nat.not_lt_zero _)
  | succ n ih =>
    simp only [read_pairs]
    split
    · exact ⟨p, rfl⟩
    · rename_i hf
      have hf' : (fin.extract_string w).1.fail = false := by simpa using hf
      have h1 := extract_string_length fin w hf'
      have h2 := extract_double_length (fin.extract_string w).1 v
      exact ih _ _ _ _ (by omega)

theorem load_phenotypes_file_finishes (fs : file_system) (filename : String) :
    ∃ p, load_phenotypes_file fs filename = some p :=
  read_pairs_finishes _ _ _ _ _ (Nat.lt_succ_self _)

theorem isspace_cases (c : Char) (h : isspace c = true) :
    c = ' ' ∨ c = '\t' ∨ c = '\n' ∨ c = '\x0b' ∨ c = '\x0c' ∨ c = '\r' := by
  simp only [isspace, Bool.or_eq_true, decide_eq_true_eq] at h
  tauto

theorem float_char_not_space (c : Char) (h : isspace c = true) : float_char c = false := by
  rcases isspace_cases c h with rfl | rfl | rfl | rfl | rfl | rfl <;> decide

theorem space_not_float_char (c : Char) (h : float_char c = true) : isspace c = false := by
  cases hs : isspace c with
  | false => rfl
  | true => rw [float_char_not_space c hs] at h; exact absurd h (by decide)

theorem scan_float_stop (a b c d : Bool) (acc : List Char) (x : Char) (xs : List Char)
    (hx : float_char x = false) : scan_float a b c d acc (x :: xs) = (acc, x :: xs) := by
  simp only [float_char, Bool.or_eq_false_iff, decide_eq_false_iff_not] at hx
  obtain ⟨⟨⟨⟨⟨h1, h2⟩, h3⟩, h4⟩, h5⟩, h6⟩ := hx
  simp [scan_float, h1, h2, h3, h4, h5, h6]

theorem scan_float_append (a b c d : Bool) (acc tok rest : List Char) (hr : ends_token rest) :
    scan_float a b c d acc (tok ++ rest) =
      ((scan_float a b c d acc tok).1, (scan_float a b c d acc tok).2 ++ rest) := by
  induction tok generalizing a b c d acc with
  | nil =>
    rcases hr with rfl | ⟨x, xs, rfl, hx⟩
    · simp [scan_float]
    · rw [List.nil_append, scan_float_stop _ _ _ _ _ _ _ (float_char_not_space x hx)]
      simp [scan_float]
  | cons t ts ih =>
    simp only [List.cons_append, scan_float]
    split
    · exact ih _ _ _ _ _
    · split
      · exact ih _ _ _ _ _
      · split
        · exact ih _ _ _ _ _
        · split
          · exact ih _ _ _ _ _
          · simp

theorem scan_float_consumed (a b c d : Bool) (acc s : List Char)
    (h : (scan_float a b c d acc s).2 = []) : ∀ x ∈ s, float_char x = true := by
  induction s generalizing a b c d acc with
  | nil => simp
  | cons t ts ih =>
    simp only [scan_float] at h
    intro x hx
    have step : ∀ a b c d acc, (scan_float a b c d acc ts).2 = [] → float_char t = true →
        float_char x = true := fun a b c d acc h1 h2 => by
      rcases List.mem_cons.1 hx with rfl | hm
      · exact h2
      · exact ih a b c d acc h1 x hm
    split at h
    · rename_i h1
      exact step _ _ _ _ _ h (by simp at h1; rcases h1.2 with e | e <;> simp [float_char, e])
    · split at h
      · rename_i h1
        exact step _ _ _ _ _ h (by simp [float_char, h1])
      · split at h
        · rename_i h1
          exact step _ _ _ _ _ h (by simp at h1; simp [float_char, h1.1.1])
        · split at h
          · rename_i h1
            exact step _ _ _ _ _ h (by simp at h1; rcases h1.1.1 with e | e <;> simp [float_char, e])
          · simp at h

theorem ends_token_head (rest : List Char) (hr : ends_token rest) (p : Char → Bool)
    (hp : ∀ c, isspace c = true → p c = false) :
    rest.dropWhile p = rest ∧ rest.takeWhile p = [] := by
  rcases hr with rfl | ⟨x, xs, rfl, hx⟩
  · simp
  · simp [List.dropWhile_cons, List.takeWhile_cons, hp x hx]

theorem dropWhile_append_stop (p : Char → Bool) (y rest : List Char)
    (h : rest.dropWhile p = rest) : (y ++ rest).dropWhile p = y.dropWhile p ++ rest := by
  induction y with
  | nil => simpa using h
  | cons c cs ih =>
    simp only [List.cons_append, List.dropWhile_cons]
    split
    · exact ih
    · rfl

theorem takeWhile_append_stop (p : Char → Bool) (y rest : List Char)
    (h : rest.takeWhile p = []) : (y ++ rest).takeWhile p = y.takeWhile p := by
  induction y with
  | nil => simpa using h
  | cons c cs ih =>
    simp only [List.cons_append, List.takeWhile_cons]
    split
    · rw [ih]
    · rfl

theorem scan_sign_append (tok rest : List Char) (hr : ends_token rest) :
    scan_sign (tok ++ rest) = ((scan_sign tok).1, (scan_sign tok).2 ++ rest) := by
  cases tok with
  | nil =>
    rcases hr with rfl | ⟨x, xs, rfl, hx⟩
    · simp [scan_sign]
    · have h := float_char_not_space x hx
      simp only [float_char, Bool.or_eq_false_iff, decide_eq_false_iff_not] at h
      simp [scan_sign, h.1.1.1.1.2, h.1.1.1.2]
  | cons t ts =>
    simp only [List.cons_append, scan_sign]
    split <;> simp

theorem extract_float_append (tok rest : List Char) (hr : ends_token rest) :
    extract_float (tok ++ rest) = ((extract_float tok).1, (extract_float tok).2 ++ rest) := by
  have hz := ends_token_head rest hr (fun c => decide (c = '0'))
    (fun c hc => by
      rcases isspace_cases c hc with rfl | rfl | rfl | rfl | rfl | rfl <;> decide)
  unfold extract_float
  simp only [scan_sign_append tok rest hr, dropWhile_append_stop _ _ _ hz.1,
    takeWhile_append_stop _ _ _ hz.2]
  split
  · exact scan_float_append _ _ _ _ _ _ _ hr
  · exact scan_float_append _ _ _ _ _ _ _ hr

theorem num_get_append (tok rest : List Char) (hr : ends_token rest) :
    num_get (tok ++ rest) =
      ⟨(num_get tok).value, (num_get tok).failbit, (num_get tok).rest ++ rest⟩ := by
  unfold num_get
  simp only [extract_float_append tok rest hr]
  split
  · rfl
  · split <;> rfl

theorem reads_as_append (tok rest : List Char) (v : ℚ) (h : reads_as tok v)
    (hr : ends_token rest) : num_get (tok ++ rest) = ⟨v, false, rest⟩ := by
  rw [num_get_append tok rest hr, h]
  rfl

theorem scan_sign_consumed (s : List Char) :
    ∀ x ∈ s, x ∉ (scan_sign s).2 → float_char x = true := by
  cases s with
  | nil => simp
  | cons c cs =>
    intro x hx hn
    simp only [scan_sign] at hn
    split at hn
    · rename_i h1
      rcases List.mem_cons.1 hx with rfl | hm
      · simp at h1; rcases h1 with e | e <;> simp [float_char, e]
      · exact absurd hm hn
    · exact absurd hx hn

theorem extract_float_consumed (s : List Char) (h : (extract_float s).2 = []) :
    ∀ x ∈ s, float_char x = true := by
  have hscan : (∀ x ∈ (scan_sign s).2.dropWhile (fun c => c = '0'), float_char x = true) := by
    unfold extract_float at h
    dsimp only at h
    split at h
    · exact scan_float_consumed _ _ _ _ _ _ h
    · exact scan_float_consumed _ _ _ _ _ _ h
  have hbody : ∀ x ∈ (scan_sign s).2, float_char x = true := by
    intro x hx
    rw [← List.takeWhile_append_dropWhile (fun c => decide (c = '0')) (scan_sign s).2] at hx
    rcases List.mem_append.1 hx with h1 | h1
    · have := List.mem_takeWhile_imp h1
      simp at this
      simp [float_char, isdigit, this]
    · exact hscan x h1
  intro x hx
  by_cases hm : x ∈ (scan_sign s).2
  · exact hbody x hm
  · exact scan_sign_consumed s x hx hm

theorem num_get_nil : (num_get []).failbit = true := by
  simp [num_get, extract_float, scan_sign, scan_float, strtod_all, take_sign]

theorem reads_as_is_word (tok : List Char) (v : ℚ) (h : reads_as tok v) : is_word tok := by
  constructor
  · rintro rfl
    have := num_get_nil
    rw [h] at this
    exact Bool.noConfusion this
  · intro c hc
    have hrest : (extract_float tok).2 = [] := by
      have : (num_get tok).rest = [] := by rw [h]
      unfold num_get at this
      dsimp only at this
      split at this
      · exact this
      · split at this <;> exact this
    exact space_not_float_char c (extract_float_consumed tok hrest c hc)

theorem isdigit_cases (c : Char) (h : isdigit c = true) :
    c = '0' ∨ c = '1' ∨ c = '2' ∨ c = '3' ∨ c = '4' ∨ c = '5' ∨ c = '6' ∨ c = '7' ∨
      c = '8' ∨ c = '9' := by
  simp only [isdigit, Bool.or_eq_true, decide_eq_true_eq] at h
  tauto

theorem isdigit_not_mark (c : Char) (h : isdigit c = true) :
    c ≠ '+' ∧ c ≠ '-' ∧ c ≠ '.' ∧ c ≠ 'e' ∧ c ≠ 'E' := by
  rcases isdigit_cases c h with rfl | rfl | rfl | rfl | rfl | rfl | rfl | rfl | rfl | rfl <;>
    decide

theorem scan_float_digits (b c : Bool) (ds rest : List Char) (hds : all_digits ds) :
    ∀ (a d : Bool) (acc : List Char), scan_float a b c d acc (ds ++ rest) =
      if ds = [] then scan_float a b c d acc rest
      else scan_float true b c false (acc ++ ds) rest := by
  induction ds with
  | nil => intro a d acc; simp
  | cons x xs ih =>
    intro a d acc
    have hx : isdigit x = true := hds x (List.mem_cons_self _ _)
    have hxs : all_digits xs := fun y hy => hds y (List.mem_cons_of_mem _ hy)
    obtain ⟨h1, h2, _⟩ := isdigit_not_mark x hx
    have step : scan_float a b c d acc (x :: (xs ++ rest)) =
        scan_float true b c false (acc ++ [x]) (xs ++ rest) := by
      simp [scan_float, h1, h2, hx]
    rw [List.cons_append, step, ih hxs]
    by_cases hnil : xs = []
    · simp [hnil]
    · simp [hnil]

theorem scan_float_end (a b c d : Bool) (acc : List Char) :
    scan_float a b c d acc [] = (acc, []) := by
  simp [scan_float]

theorem scan_float_point (a : Bool) (acc rest : List Char) :
    scan_float a false false false acc ('.' :: rest) =
      scan_float a true false false (acc ++ ['.']) rest := by
  simp [scan_float, isdigit]

theorem all_digits_dropWhile (p : Char → Bool) (l : List Char) (h : all_digits l) :
    all_digits (l.dropWhile p) :=
  fun c hc => h c ((List.dropWhile_sublist p).subset hc)

theorem takeWhile_digits (n rest : List Char) (hn : all_digits n)
    (hr : rest.takeWhile isdigit = []) : (n ++ rest).takeWhile isdigit = n := by
  rw [takeWhile_append_stop _ _ _ hr]
  exact List.takeWhile_eq_self_iff.2 hn

theorem dropWhile_digits (n rest : List Char) (hn : all_digits n)
    (hr : rest.dropWhile isdigit = rest) : (n ++ rest).dropWhile isdigit = rest := by
  rw [dropWhile_append_stop _ _ _ hr, List.dropWhile_eq_nil_iff.2 hn, List.nil_append]

theorem digits_val_append (a b : List Char) :
    digits_val (a ++ b) = digits_val a * 10 ^ b.length + digits_val b := by
  unfold digits_val
  induction b using List.reverseRecOn with
  | nil => simp
  | append_singleton bs x ih =>
    rw [List.foldl_append] at ih
    simp only [← List.append_assoc, List.foldl_append, List.foldl_cons, List.foldl_nil, ih,
      List.length_append, List.length_singleton, pow_succ]
    ring

theorem digits_val_zeros (z : List Char) (hz : ∀ c ∈ z, c = '0') : digits_val z = 0 := by
  unfold digits_val
  induction z using List.reverseRecOn with
  | nil => rfl
  | append_singleton zs x ih =>
    rw [List.foldl_append, List.foldl_cons, List.foldl_nil,
      ih (fun c hc => hz c (List.mem_append_left _ hc)),
      hz x (List.mem_append_right _ (List.mem_singleton_self _))]
    rfl

theorem digits_val_collapse_zeros (ip : List Char) :
    digits_val (collapse_zeros ip) = digits_val ip := by
  have hz : ∀ c ∈ ip.takeWhile (fun c => decide (c = '0')), c = '0' := by
    intro c hc
    simpa using List.mem_takeWhile_imp hc
  have h2 := List.takeWhile_append_dropWhile (fun c => decide (c = '0')) ip
  have h3 : digits_val ip = digits_val (ip.dropWhile (fun c => decide (c = '0'))) := by
    conv_lhs => rw [← h2]
    rw [digits_val_append, digits_val_zeros _ hz]
    simp
  unfold collapse_zeros
  split
  · rw [List.nil_append, h3]
  · rw [digits_val_append, h3]
    simp [digits_val, digit_val]

theorem ends_token_blank (l : List Char) (h : is_blank l) : ends_token l := by
  cases l with
  | nil => exact Or.inl rfl
  | cons c cs => exact Or.inr ⟨c, cs, rfl, h c (List.mem_cons_self _ _)⟩

theorem ends_token_blank_append (l t : List Char) (h : is_blank l) (hne : l ≠ []) :
    ends_token (l ++ t) := by
  cases l with
  | nil => exact absurd rfl hne
  | cons c cs => exact Or.inr ⟨c, cs ++ t, rfl, h c (List.mem_cons_self _ _)⟩

theorem body_ne_nil (e : entry) (es : List entry) (he : e.ok) : body (e :: es) ≠ [] := by
  obtain ⟨_, ⟨hid, _⟩, _⟩ := he
  intro h
  simp [body, entry.text] at h
  exact hid h.2.1

theorem followed_of_separated (es : List entry) (tail : List Char) (hok : ∀ e ∈ es, e.ok)
    (hsep : separated es) (ht : ends_token tail) : followed es tail := by
  induction es with
  | nil => trivial
  | cons e es ih =>
    refine ⟨?_, ih (fun x hx => hok x (List.mem_cons_of_mem _ hx)) ?_⟩
    · cases es with
      | nil => simpa [body] using ht
      | cons e2 es2 =>
        have h2 : e2.pre ≠ [] := hsep e2 (by simp)
        have hb : is_blank e2.pre := (hok e2 (by simp)).1
        have : body (e2 :: es2) ++ tail
            = e2.pre ++ (e2.id ++ e2.sep ++ e2.num ++ body es2 ++ tail) := by
          simp [body, entry.text, List.append_assoc]
        rw [this]
        exact ends_token_blank_append _ _ hb h2
    · intro x hx
      exact hsep x (by simpa using List.mem_of_mem_tail hx)

theorem last_value_cons_cons (v : double) (e e2 : entry) (es : List entry) :
    last_value v (e :: e2 :: es) = last_value (double.real e.val) (e2 :: es) := by
  unfold last_value
  rw [List.getLast?_cons_cons]
  cases h : (e2 :: es).getLast? with
  | none => simp at h
  | some x => rfl

/-- One iteration of the loop on a well-formed pair. -/
theorem read_pairs_step (n : Nat) (e : entry) (rest : List Char) (w : String) (v : double)
    (acc : phenotype_list) (he : e.ok) (hr : ends_token rest) :
    read_pairs (n + 1) ⟨e.text ++ rest, false, false⟩ w v acc =
      read_pairs n ⟨rest, rest.isEmpty, false⟩ (String.mk e.id) (double.real e.val)
        (acc.1 ++ [String.mk e.id], acc.2 ++ [double.real e.val]) := by
  obtain ⟨hpre, hid, hsep, hsepne, hnum⟩ := he
  have hnumw := reads_as_is_word _ _ hnum
  have htext : e.text ++ rest = e.pre ++ (e.id ++ (e.sep ++ (e.num ++ rest))) := by
    simp [entry.text, List.append_assoc]
  have hd1 : (e.text ++ rest).dropWhile isspace = e.id ++ (e.sep ++ (e.num ++ rest)) := by
    rw [htext, dropWhile_blank_append _ _ hpre, dropWhile_isspace_word _ _ hid]
  have hne1 : e.id ++ (e.sep ++ (e.num ++ rest)) ≠ [] := by
    intro h; exact hid.1 (List.append_eq_nil.1 h).1
  have het : ends_token (e.sep ++ (e.num ++ rest)) := ends_token_blank_append _ _ hsep hsepne
  have hs : (⟨e.text ++ rest, false, false⟩ : ifstream).extract_string w =
      (⟨e.sep ++ (e.num ++ rest), false, false⟩, String.mk e.id) := by
    rw [extract_string_token ⟨e.text ++ rest, false, false⟩ w rfl (by rw [hd1]; exact hne1)]
    simp only [hd1, takeWhile_word _ _ hid.2 het, dropWhile_word _ _ hid.2 het]
    have h1 : (e.sep ++ (e.num ++ rest)).isEmpty = false := by
      cases hh : e.sep with
      | nil => exact absurd hh hsepne
      | cons _ _ => rfl
    have h2 : e.id.isEmpty = false := by
      cases hh : e.id with
      | nil => exact absurd hh hid.1
      | cons _ _ => rfl
    simp [h1, h2]
  have hd2 : (e.sep ++ (e.num ++ rest)).dropWhile isspace = e.num ++ rest := by
    rw [dropWhile_blank_append _ _ hsep, dropWhile_isspace_word _ _ hnumw]
  have hne2 : e.num ++ rest ≠ [] := by
    intro h; exact hnumw.1 (List.append_eq_nil.1 h).1
  have hdbl : (⟨e.sep ++ (e.num ++ rest), false, false⟩ : ifstream).extract_double v =
      (⟨rest, rest.isEmpty, false⟩, double.real e.val) := by
    rw [extract_double_token ⟨e.sep ++ (e.num ++ rest), false, false⟩ v rfl (by rw [hd2]; exact hne2)]
    simp only [hd2, reads_as_append _ _ _ hnum hr]
    simp
  simp only [read_pairs, hs, hdbl, ifstream.fail]
  simp

/-- The loop on a sequence of well-formed pairs: it stores them all and goes on with what
follows them. -/
theorem read_pairs_entries (es : List entry) (tail : List Char) (hok : ∀ e ∈ es, e.ok)
    (hf : followed es tail) (n : Nat) (w : String) (v : double) (acc : phenotype_list)
    (hn : (body es ++ tail).length < n) :
    ∃ m w2 eof, tail.length < m ∧ (eof = true → tail = []) ∧
      read_pairs n ⟨body es ++ tail, false, false⟩ w v acc =
        read_pairs m ⟨tail, eof, false⟩ w2 (last_value v es)
          (acc.1 ++ names es, acc.2 ++ values es) := by
  induction es generalizing n w v acc with
  | nil =>
    refine ⟨n, w, false, by simpa [body] using hn, by simp, ?_⟩
    simp [body, names, values, last_value]
  | cons e es ih =>
    have he := hok e (List.mem_cons_self _ _)
    have hok2 : ∀ x ∈ es, x.ok := fun x hx => hok x (List.mem_cons_of_mem _ hx)
    obtain ⟨hr, hf2⟩ := hf
    have hbody : body (e :: es) ++ tail = e.text ++ (body es ++ tail) := by
      simp [body, List.append_assoc]
    have hwpos : 0 < e.id.length := List.length_pos.2 he.2.1.1
    have hlen : (body (e :: es) ++ tail).length
        = e.text.length + (body es ++ tail).length := by
      rw [hbody, List.length_append]
    have htl : e.id.length ≤ e.text.length := by
      simp [entry.text]; omega
    cases n with
    | zero => exact absurd hn (Nat.not_lt_zero _)
    | succ n =>
      rw [hbody, read_pairs_step n e _ w v acc he hr]
      cases es with
      | nil =>
        refine ⟨n, String.mk e.id, tail.isEmpty, ?_, ?_, ?_⟩
        · simp [body] at hlen hn ⊢; omega
        · intro h; simpa using h
        · simp [body, names, values, last_value]
      | cons e2 es2 =>
        have hne : (body (e2 :: es2) ++ tail).isEmpty = false := by
          have := body_ne_nil e2 es2 (hok2 e2 (List.mem_cons_self _ _))
          cases hh : body (e2 :: es2) with
          | nil => exact absurd hh this
          | cons _ _ => rfl
        rw [hne]
        obtain ⟨m, w2, eof, h1, h2, h3⟩ := ih hok2 hf2 n (String.mk e.id) (double.real e.val)
          (acc.1 ++ [String.mk e.id], acc.2 ++ [double.real e.val]) (by omega)
        refine ⟨m, w2, eof, h1, h2, ?_⟩
        rw [h3, last_value_cons_cons]
        simp [names, values]

theorem ignore_header (header rest : List Char) (hh : '\n' ∉ header) :
    (ifstream.open_file (some (header ++ '\n' :: rest))).ignore '\n' = ⟨rest, false, false⟩ := by
  simp [ifstream.open_file, ifstream.ignore, sentry, ifstream.good,
    after_delim_append '\n' header rest hh]

theorem ignore_no_newline (content : List Char) (hh : '\n' ∉ content) :
    (ifstream.open_file (some content)).ignore '\n' = ⟨[], true, false⟩ := by
  simp [ifstream.open_file, ifstream.ignore, sentry, ifstream.good,
    after_delim_none '\n' content hh]

theorem ignore_unopened :
    (ifstream.open_file none).ignore '\n' = ⟨[], false, true⟩ := by
  simp [ifstream.open_file, ifstream.ignore, sentry, ifstream.good]

theorem read_pairs_succ (n : Nat) (fin : ifstream) (w : String) (v : double)
    (acc : phenotype_list) :
    read_pairs (n + 1) fin w v acc =
      if (fin.extract_string w).1.fail = true then some acc
      else read_pairs n ((fin.extract_string w).1.extract_double v).1 (fin.extract_string w).2
        ((fin.extract_string w).1.extract_double v).2
        (acc.1 ++ [(fin.extract_string w).2],
         acc.2 ++ [((fin.extract_string w).1.extract_double v).2]) := rfl

/-- On a stream that is not good the loop stops at once. -/
theorem read_pairs_not_good (n : Nat) (fin : ifstream) (w : String) (v : double)
    (acc : phenotype_list) (hg : fin.good = false) :
    read_pairs (n + 1) fin w v acc = some acc := by
  simp [read_pairs, extract_string_not_good fin w hg, ifstream.fail]

/-- On a stream whose unread text is blank the loop stops at once. -/
theorem read_pairs_blank (m : Nat) (tail : List Char) (eof : Bool) (w : String) (v : double)
    (acc : phenotype_list) (hm : tail.length < m) (ht : is_blank tail) :
    read_pairs m ⟨tail, eof, false⟩ w v acc = some acc := by
  cases m with
  | zero => exact absurd hm (Nat.not_lt_zero _)
  | succ m =>
    cases eof with
    | true => exact read_pairs_not_good _ _ _ _ _ rfl
    | false =>
      have hd : tail.dropWhile isspace = [] := List.dropWhile_eq_nil_iff.2 ht
      simp [read_pairs, extract_string_at_end ⟨tail, false, false⟩ w rfl hd, ifstream.fail]

/-- The loop on an identifier after which the file ends: the identifier is stored with the
value the variable `value` already holds. -/
theorem read_pairs_lone_word (m : Nat) (pre wd trail : List Char) (w : String) (v : double)
    (acc : phenotype_list) (hm : (pre ++ (wd ++ trail)).length < m) (hpre : is_blank pre)
    (hwd : is_word wd) (htrail : is_blank trail) :
    read_pairs m ⟨pre ++ (wd ++ trail), false, false⟩ w v acc =
      some (acc.1 ++ [String.mk wd], acc.2 ++ [v]) := by
  have hwpos : 0 < wd.length := List.length_pos.2 hwd.1
  have hd1 : (pre ++ (wd ++ trail)).dropWhile isspace = wd ++ trail := by
    rw [dropWhile_blank_append _ _ hpre, dropWhile_isspace_word _ _ hwd]
  have hne1 : wd ++ trail ≠ [] := fun h => hwd.1 (List.append_eq_nil.1 h).1
  have het := ends_token_blank trail htrail
  have h2 : wd.isEmpty = false := by
    cases hh : wd with
    | nil => exact absurd hh hwd.1
    | cons _ _ => rfl
  have hs : (⟨pre ++ (wd ++ trail), false, false⟩ : ifstream).extract_string w =
      (⟨trail, trail.isEmpty, false⟩, String.mk wd) := by
    rw [extract_string_token ⟨pre ++ (wd ++ trail), false, false⟩ w rfl (by rw [hd1]; exact hne1)]
    simp only [hd1, takeWhile_word _ _ hwd.2 het, dropWhile_word _ _ hwd.2 het]
    simp [h2]
  have hdbl : ((⟨trail, trail.isEmpty, false⟩ : ifstream).extract_double v).2 = v ∧
      ((⟨trail, trail.isEmpty, false⟩ : ifstream).extract_double v).1.good = false := by
    cases trail with
    | nil => simp [extract_double_not_good ⟨[], true, false⟩ v rfl, ifstream.good]
    | cons c cs =>
      have hd : (c :: cs).dropWhile isspace = [] := List.dropWhile_eq_nil_iff.2 htrail
      simp [extract_double_at_end ⟨c :: cs, false, false⟩ v rfl hd, ifstream.good]
  match m, hm with
  | m + 2, _ =>
    rw [read_pairs_succ, hs]
    simp only [ifstream.fail, Bool.false_eq_true, if_false]
    rw [read_pairs_not_good m _ _ _ _ hdbl.2, hdbl.1]
  | 1, hm => simp only [List.length_append] at hm; omega
  | 0, hm => exact absurd hm (Nat.not_lt_zero _)

/-- The loop on an identifier followed by a text from which `num_get` reads with `failbit`:
the identifier is stored with the value `num_get` stores, and reading stops. -/
theorem read_pairs_failed_number (m : Nat) (pre wd sep junk : List Char) (w : String)
    (v : double) (acc : phenotype_list) (hm : (pre ++ (wd ++ (sep ++ junk))).length < m)
    (hpre : is_blank pre) (hwd : is_word wd) (hsep : is_blank sep) (hsepne : sep ≠ [])
    (hjunk : starts_token junk) (hfail : (num_get junk).failbit = true) :
    read_pairs m ⟨pre ++ (wd ++ (sep ++ junk)), false, false⟩ w v acc =
      some (acc.1 ++ [String.mk wd], acc.2 ++ [double.real (num_get junk).value]) := by
  have hwpos : 0 < wd.length := List.length_pos.2 hwd.1
  have hd1 : (pre ++ (wd ++ (sep ++ junk))).dropWhile isspace = wd ++ (sep ++ junk) := by
    rw [dropWhile_blank_append _ _ hpre, dropWhile_isspace_word _ _ hwd]
  have hne1 : wd ++ (sep ++ junk) ≠ [] := fun h => hwd.1 (List.append_eq_nil.1 h).1
  have het : ends_token (sep ++ junk) := ends_token_blank_append _ _ hsep hsepne
  have h1 : (sep ++ junk).isEmpty = false := by
    cases hh : sep with
    | nil => exact absurd hh hsepne
    | cons _ _ => rfl
  have h2 : wd.isEmpty = false := by
    cases hh : wd with
    | nil => exact absurd hh hwd.1
    | cons _ _ => rfl
  have hs : (⟨pre ++ (wd ++ (sep ++ junk)), false, false⟩ : ifstream).extract_string w =
      (⟨sep ++ junk, false, false⟩, String.mk wd) := by
    rw [extract_string_token ⟨pre ++ (wd ++ (sep ++ junk)), false, false⟩ w rfl
      (by rw [hd1]; exact hne1)]
    simp only [hd1, takeWhile_word _ _ hwd.2 het, dropWhile_word _ _ hwd.2 het]
    simp [h1, h2]
  obtain ⟨j, js, rfl, hj⟩ := hjunk
  have hd2 : (sep ++ j :: js).dropWhile isspace = j :: js := by
    rw [dropWhile_blank_append _ _ hsep]
    simp [List.dropWhile_cons, hj]
  have hdbl : ((⟨sep ++ j :: js, false, false⟩ : ifstream).extract_double v).2
        = double.real (num_get (j :: js)).value ∧
      ((⟨sep ++ j :: js, false, false⟩ : ifstream).extract_double v).1.good = false := by
    rw [extract_double_token ⟨sep ++ j :: js, false, false⟩ v rfl (by rw [hd2]; simp)]
    simp [hd2, hfail, ifstream.good]
  match m, hm with
  | m + 2, _ =>
    rw [read_pairs_succ, hs]
    simp only [ifstream.fail, Bool.false_eq_true, if_false]
    rw [read_pairs_not_good m _ _ _ _ hdbl.2, hdbl.1]
  | 1, hm => simp only [List.length_append] at hm; omega
  | 0, hm => exact absurd hm (Nat.not_lt_zero _)

theorem num_get_cannot_read (junk : List Char) (h : cannot_read junk) :
    (num_get junk).failbit = true ∧ (num_get junk).value = 0 := by
  unfold cannot_read at h
  simp [num_get, h]

/-- The two vectors grow together. -/
theorem read_pairs_lengths (n : Nat) (fin : ifstream) (w : String) (v : double)
    (acc r : phenotype_list) (h : read_pairs n fin w v acc = some r)
    (hacc : acc.1.length = acc.2.length) : r.1.length = r.2.length := by
  induction n generalizing fin w v acc with
  | zero => simp [read_pairs] at h
  | succ n ih =>
    simp only [read_pairs] at h
    split at h
    · cases h; exact hacc
    · exact ih _ _ _ _ h (by simp [hacc])

theorem load_after_header (fs : file_system) (filename : String) (header rest : List Char)
    (hfile : fs filename = some (header ++ '\n' :: rest)) (hh : '\n' ∉ header) :
    load_phenotypes_file fs filename =
      read_pairs (rest.length + 1) ⟨rest, false, false⟩ "" double.indeterminate ([], []) := by
  unfold load_phenotypes_file
  rw [hfile, ignore_header header rest hh]

theorem load_pairs_then (fs : file_system) (filename : String) (header : List Char)
    (es : List entry) (tail : List Char)
    (hfile : fs filename = some (header ++ '\n' :: (body es ++ tail)))
    (hh : '\n' ∉ header) (hok : ∀ e ∈ es, e.ok) (hf : followed es tail) :
    ∃ m w2 eof, tail.length < m ∧ (eof = true → tail = []) ∧
      load_phenotypes_file fs filename =
        read_pairs m ⟨tail, eof, false⟩ w2 (last_value double.indeterminate es)
          (names es, values es) := by
  rw [load_after_header fs filename header _ hfile hh]
  obtain ⟨m, w2, eof, h1, h2, h3⟩ := read_pairs_entries es tail hok hf _ ""
    double.indeterminate ([], []) (Nat.lt_succ_self _)
  exact ⟨m, w2, eof, h1, h2, by simpa using h3⟩

theorem followed_before_word (es : List entry) (pre rest : List Char) (hok : ∀ e ∈ es, e.ok)
    (hsep : separated es) (hpre : is_blank pre) (hne : es ≠ [] → pre ≠ []) :
    followed es (pre ++ rest) := by
  cases es with
  | nil => trivial
  | cons e es =>
    exact followed_of_separated _ _ hok hsep
      (ends_token_blank_append _ _ hpre (hne (List.cons_ne_nil _ _)))

theorem load_well_formed (fs : file_system) (filename : String) (header : List Char)
    (es : List entry) (trail : List Char)
    (hfile : fs filename = some (header ++ '\n' :: (body es ++ trail)))
    (hh : '\n' ∉ header) (hok : ∀ e ∈ es, e.ok) (hsep : separated es)
    (htrail : is_blank trail) :
    load_phenotypes_file fs filename = some (names es, values es) := by
  obtain ⟨m, w2, eof, h1, _, h3⟩ := load_pairs_then fs filename header es trail hfile hh hok
    (followed_of_separated es trail hok hsep (ends_token_blank trail htrail))
  rw [h3, read_pairs_blank m trail eof _ _ _ h1 htrail]

theorem load_failed_number (fs : file_system) (filename : String) (header : List Char)
    (es : List entry) (pre wd sep junk : List Char)
    (hfile : fs filename = some (header ++ '\n' :: (body es ++ (pre ++ (wd ++ (sep ++ junk))))))
    (hh : '\n' ∉ header) (hok : ∀ e ∈ es, e.ok) (hsep : separated es)
    (hpre : is_blank pre) (hne : es ≠ [] → pre ≠ []) (hwd : is_word wd)
    (hsp : is_blank sep) (hspne : sep ≠ []) (hjunk : starts_token junk)
    (hfail : (num_get junk).failbit = true) :
    load_phenotypes_file fs filename =
      some (names es ++ [String.mk wd], values es ++ [double.real (num_get junk).value]) := by
  obtain ⟨m, w2, eof, h1, h2, h3⟩ := load_pairs_then fs filename header es _ hfile hh hok
    (followed_before_word es pre _ hok hsep hpre hne)
  cases eof with
  | true => exact absurd (List.append_eq_nil.1 (List.append_eq_nil.1 (h2 rfl)).2).1 hwd.1
  | false =>
    rw [h3]
    exact read_pairs_failed_number m pre wd sep junk _ _ _ h1 hpre hwd hsp hspne hjunk hfail

theorem load_lone_word (fs : file_system) (filename : String) (header : List Char)
    (es : List entry) (pre wd trail : List Char)
    (hfile : fs filename = some (header ++ '\n' :: (body es ++ (pre ++ (wd ++ trail)))))
    (hh : '\n' ∉ header) (hok : ∀ e ∈ es, e.ok) (hsep : separated es)
    (hpre : is_blank pre) (hne : es ≠ [] → pre ≠ []) (hwd : is_word wd)
    (htrail : is_blank trail) :
    load_phenotypes_file fs filename =
      some (names es ++ [String.mk wd], values es ++ [last_value double.indeterminate es]) := by
  obtain ⟨m, w2, eof, h1, h2, h3⟩ := load_pairs_then fs filename header es _ hfile hh hok
    (followed_before_word es pre _ hok hsep hpre hne)
  cases eof with
  | true => exact absurd (List.append_eq_nil.1 (List.append_eq_nil.1 (h2 rfl)).2).1 hwd.1
  | false =>
    rw [h3]
    exact read_pairs_lone_word m pre wd trail _ _ _ h1 hpre hwd htrail

theorem load_no_newline (fs : file_system) (filename : String) (content : List Char)
    (hfile : fs filename = some content) (hh : '\n' ∉ content) :
    load_phenotypes_file fs filename = some ([], []) := by
  unfold load_phenotypes_file
  rw [hfile, ignore_no_newline content hh]
  exact read_pairs_not_good _ _ _ _ _ rfl

theorem load_unopened (fs : file_system) (filename : String) (hfile : fs filename = none) :
    load_phenotypes_file fs filename = some ([], []) := by
  unfold load_phenotypes_file
  rw [hfile, ignore_unopened]
  exact read_pairs_not_good _ _ _ _ _ rfl

theorem reads_as_one : reads_as ['1', '.', '0'] 1 := by
  have h : num_get ['1', '.', '0'] = ⟨dec_val false 10 (-1), false, []⟩ := rfl
  unfold reads_as
  rw [h]
  norm_num [dec_val]

theorem reads_as_zero : reads_as ['0', '.', '0'] 0 := by
  have h : num_get ['0', '.', '0'] = ⟨dec_val false 0 (-1), false, []⟩ := rfl
  unfold reads_as
  rw [h]
  norm_num [dec_val]

theorem scenario_entries_ok : ∀ e ∈ scenario_entries, e.ok := by
  have hb0 : is_blank [] := by intro c hc; cases hc
  have hb1 : is_blank [' '] := by intro c hc; simp at hc; subst hc; rfl
  have hb2 : is_blank ['\n'] := by intro c hc; simp at hc; subst hc; rfl
  have hw : ∀ x : Char, isspace x = false → is_word [x] := fun x hx =>
    ⟨by simp, by intro c hc; simp at hc; subst hc; exact hx⟩
  intro e he
  simp only [scenario_entries, List.mem_cons, List.mem_singleton, List.not_mem_nil,
    or_false] at he
  rcases he with rfl | rfl | rfl | rfl
  · exact ⟨hb0, hw 'A' rfl, hb1, by simp, reads_as_one⟩
  · exact ⟨hb2, hw 'B' rfl, hb1, by simp, reads_as_one⟩
  · exact ⟨hb2, hw 'C' rfl, hb1, by simp, reads_as_zero⟩
  · exact ⟨hb2, hw 'D' rfl, hb1, by simp, reads_as_zero⟩

theorem scenario_entries_separated : separated scenario_entries := by
  intro e he
  simp only [scenario_entries, List.tail_cons, List.mem_cons, List.mem_singleton,
    List.not_mem_nil, or_false] at he
  rcases he with rfl | rfl | rfl <;> simp

theorem is_blank_nil : is_blank [] := by intro c hc; cases hc

theorem is_blank_singleton (x : Char) (hx : isspace x = true) : is_blank [x] := by
  intro c hc; simp at hc; subst hc; exact hx

theorem is_word_singleton (x : Char) (hx : isspace x = false) : is_word [x] :=
  ⟨by simp, by intro c hc; simp at hc; subst hc; exact hx⟩

theorem entry_A_ok : (⟨[], ['A'], [' '], ['1', '.', '0'], 1⟩ : entry).ok :=
  ⟨is_blank_nil, is_word_singleton 'A' rfl, is_blank_singleton ' ' rfl, by simp, reads_as_one⟩

theorem reads_as_three_halves : reads_as ['1', '.', '5'] (3 / 2) := by
  have h : num_get ['1', '.', '5'] = ⟨dec_val false 15 (-1), false, []⟩ := rfl
  unfold reads_as
  rw [h]
  norm_num [dec_val]

theorem cannot_read_abc : cannot_read "abc\nC 0.0\n".toList := by
  unfold cannot_read
  rfl

theorem names_nodup_iff (es : List entry) :
    (names es).Nodup ↔ (es.map entry.id).Nodup := by
  have h : names es = (es.map entry.id).map String.mk := by simp [names]
  rw [h]
  exact List.nodup_map_iff (fun a b hab => by injection hab)

theorem forall_mem_concat (P : event → Prop) (l : List event) (x : event)
    (hl : ∀ y ∈ l, P y) (hx : P x) : ∀ y ∈ l ++ [x], P y := by
  intro y hy
  rcases List.mem_append.1 hy with h | h
  · exact hl y h
  · simp at h; subst h; exact hx

/-- The events a `call` chain with the given continuation can add. -/
theorem mem_call (env : collaborators) (tr : List event) (c : event)
    (k : List event → List event × flow) (P : event → Prop)
    (hc : P c) (htr : ∀ x ∈ tr, P x)
    (hk : (∀ x ∈ tr ++ [c], P x) → ∀ x ∈ (k (tr ++ [c])).1, P x) :
    ∀ x ∈ (call env tr c k).1, P x := by
  have hall : ∀ x ∈ tr ++ [c], P x := forall_mem_concat P tr c htr hc
  unfold call
  split
  · exact hall
  · exact hk hall

/-- Every step of the `try` block, once the phenotype list is loaded, satisfies a property
that holds of the eight steps the block can take. -/
theorem main_try_events (fs : file_system) (env : collaborators) (vm : variables_map)
    (filename : String) (p : phenotype_list) (r : List event × flow)
    (hhelp : vm.help = false) (hfile : vm.phenotype_file = some filename)
    (hload : load_phenotypes_file fs filename = some p)
    (hr : main_try fs env (Except.ok vm) = some r) (P : event → Prop)
    (h1 : ∀ s, P (event.cerr s))
    (h2 : P (event.kmer_multipleDB (vm.DBs_path.getD default_DBs_path) p.1
      (vm.kmers_file.getD default_kmers_file)))
    (h3 : P (event.load_kmer_and_score_raw_file raw_file_path))
    (h4 : P event.load_kmers) (h5 : P event.get_hashtable_size)
    (h6 : P (event.output_plink_bed_file "plink_test1"))
    (h7 : P event.output_kmers_textual) :
    ∀ x ∈ r.1, P x := by
  simp only [main_try, hhelp, hfile, hload, Bool.false_eq_true, if_false, Option.some.injEq] at hr
  subst hr
  apply mem_call _ _ _ _ P h2 (by intro x hx; simp at hx; subst hx; exact h1 _)
  intro _
  apply mem_call _ _ _ _ P h3 (by assumption)
  intro _
  apply mem_call _ _ _ _ P h4 (by assumption)
  intro _
  apply mem_call _ _ _ _ P h5 (by assumption)
  intro ht4
  apply mem_call _ _ _ _ P h6 (forall_mem_concat P _ _ ht4 (h1 _))
  intro _
  apply mem_call _ _ _ _ P h7 (by assumption)
  intro h
  exact h

/-- The function `main` returns. -/
theorem main_finishes (fs : file_system) (env : collaborators)
    (parsed : Except thrown variables_map) : ∃ out, main fs env parsed = some out := by
  have key : ∀ r : List event × flow, ∃ out,
      (match some r with
        | none => none
        | some (trace, flow.returned code) => some (⟨trace, code⟩ : outcome)
        | some (trace, flow.fell_through) => some ⟨trace, 0⟩
        | some (trace, flow.threw (thrown.std_exception what)) =>
          some ⟨trace ++ [event.cerr ("error: " ++ what ++ "\n")], 1⟩
        | some (trace, flow.threw thrown.unknown) =>
          some ⟨trace ++ [event.cerr "Exception of unknown type!\n"], 0⟩) = some out := by
    rintro ⟨tr, f⟩
    cases f with
    | returned c => exact ⟨_, rfl⟩
    | fell_through => exact ⟨_, rfl⟩
    | threw e => cases e <;> exact ⟨_, rfl⟩
  have htry : ∃ r, main_try fs env parsed = some r := by
    unfold main_try
    cases parsed with
    | error e => exact ⟨_, rfl⟩
    | ok vm =>
      dsimp only
      split
      · exact ⟨_, rfl⟩
      · split
        · exact ⟨_, rfl⟩
        · rename_i filename hfile
          obtain ⟨p, hp⟩ := load_phenotypes_file_finishes fs filename
          rw [hp]
          exact ⟨_, rfl⟩
  obtain ⟨r, hr⟩ := htry
  unfold main
  rw [hr]
  exact key r

/-- The trace of `main` is the trace of the `try` block, followed by the message of a handler
if one ran. -/
theorem main_trace (fs : file_system) (env : collaborators)
    (parsed : Except thrown variables_map) (out : outcome)
    (h : main fs env parsed = some out) :
    ∃ r, main_try fs env parsed = some r ∧
      (out.trace = r.1 ∨ ∃ s, out.trace = r.1 ++ [event.cerr s]) := by
  unfold main at h
  cases hr : main_try fs env parsed with
  | none => rw [hr] at h; cases h
  | some r =>
    rw [hr] at h
    obtain ⟨tr, f⟩ := r
    refine ⟨_, rfl, ?_⟩
    cases f with
    | returned c => cases h; exact Or.inl rfl
    | fell_through => cases h; exact Or.inl rfl
    | threw e => cases e <;> (cases h; exact Or.inr ⟨_, rfl⟩)

/-- A property of events that holds of console output and of the six calls `main` makes holds
of every step of a run. -/
theorem main_events (fs : file_system) (env : collaborators)
    (parsed : Except thrown variables_map) (out : outcome)
    (h : main fs env parsed = some out) (P : event → Prop)
    (hout : ∀ x, x.is_call = false → P x)
    (hcalls : ∀ vm filename p, parsed = Except.ok vm → vm.help = false →
      vm.phenotype_file = some filename → load_phenotypes_file fs filename = some p →
      P (event.kmer_multipleDB (vm.DBs_path.getD default_DBs_path) p.1
        (vm.kmers_file.getD default_kmers_file)) ∧
      P (event.load_kmer_and_score_raw_file raw_file_path) ∧ P event.load_kmers ∧
      P event.get_hashtable_size ∧ P (event.output_plink_bed_file "plink_test1") ∧
      P event.output_kmers_textual) :
    ∀ x ∈ out.trace, P x := by
  obtain ⟨r, hr, htr⟩ := main_trace fs env parsed out h
  have hr1 : ∀ x ∈ r.1, P x := by
    cases parsed with
    | error e =>
      simp only [main_try, Option.some.injEq] at hr
      subst hr
      intro x hx
      cases hx
    | ok vm =>
      cases hhelp : vm.help with
      | true =>
        simp only [main_try, hhelp, if_true, Option.some.injEq] at hr
        subst hr
        intro x hx
        simp at hx
        subst hx
        exact hout _ rfl
      | false =>
        cases hfile : vm.phenotype_file with
        | none =>
          simp only [main_try, hhelp, hfile, Bool.false_eq_true, if_false,
            Option.some.injEq] at hr
          subst hr
          intro x hx
          simp at hx
          subst hx
          exact hout _ rfl
        | some filename =>
          obtain ⟨p, hp⟩ := load_phenotypes_file_finishes fs filename
          obtain ⟨c1, c2, c3, c4, c5, c6⟩ := hcalls vm filename p rfl hhelp hfile hp
          exact main_try_events fs env vm filename p r hhelp hfile hp hr P
            (fun s => hout _ rfl) c1 c2 c3 c4 c5 c6
  rcases htr with e | ⟨s, e⟩
  · rw [e]; exact hr1
  · rw [e]; exact forall_mem_concat P _ _ hr1 (hout _ rfl)

theorem call_grows (env : collaborators) (c : event)
    (k : List event → List event → List event × flow) (hk : ∀ t, grows (k t)) :
    grows (fun t => call env t c (k t)) := by
  intro t x hx
  show x ∈ (call env t c (k t)).1
  unfold call
  split
  · exact List.mem_append_left _ hx
  · exact hk _ _ _ (List.mem_append_left _ hx)

theorem grows_after (e : List event → event) (k : List event → List event × flow)
    (hk : grows k) : grows (fun t => k (t ++ [e t])) :=
  fun _ _ hx => hk _ _ (List.mem_append_left _ hx)

theorem mem_call_self (env : collaborators) (tr : List event) (c : event)
    (k : List event → List event × flow) (hk : grows k) : c ∈ (call env tr c k).1 := by
  unfold call
  split
  · simp
  · exact hk _ _ (List.mem_append_right _ (List.mem_singleton_self _))

theorem main_scenario_run :
    main scenario_fs (quiet_env 4) (Except.ok scenario_vm) =
      some ⟨full_trace "phenotypes.txt" default_DBs_path default_kmers_file
        ["A", "B", "C", "D"] 4, 0⟩ := rfl

theorem scenario_load :
    load_phenotypes_file scenario_fs "phenotypes.txt" =
      some (["A", "B", "C", "D"], [double.real (dec_val false 10 (-1)),
        double.real (dec_val false 10 (-1)), double.real (dec_val false 0 (-1)),
        double.real (dec_val false 0 (-1))]) := rfl

theorem other_values_load :
    load_phenotypes_file other_values_fs "phenotypes.txt" =
      some (["A", "B", "C", "D"], [double.real (dec_val false 5 (-1)),
        double.real (dec_val false 2 0), double.real (dec_val true 3 1),
        double.real (dec_val false 425 (-2))]) := rfl

theorem other_values_differ :
    (load_phenotypes_file scenario_fs "phenotypes.txt").map Prod.snd ≠
      (load_phenotypes_file other_values_fs "phenotypes.txt").map Prod.snd := by
  rw [scenario_load, other_values_load]
  norm_num [dec_val]

theorem starts_mark_stop (l : List Char) (h : starts_mark l) (p : Char → Bool)
    (h1 : p '.' = false) (h2 : p 'e' = false) (h3 : p 'E' = false) :
    l.dropWhile p = l ∧ l.takeWhile p = [] := by
  rcases h with rfl | ⟨c, cs, rfl, rfl | rfl | rfl⟩
  · simp
  · simp [List.dropWhile_cons, List.takeWhile_cons, h1]
  · simp [List.dropWhile_cons, List.takeWhile_cons, h2]
  · simp [List.dropWhile_cons, List.takeWhile_cons, h3]

theorem starts_mark_exp_text (ex : Option exponent_part) : starts_mark (exp_text ex) := by
  cases ex with
  | none => exact Or.inl rfl
  | some e =>
    cases hu : e.upper with
    | true =>
      exact Or.inr ⟨'E', sign_text e.sign ++ e.digits, by simp [exp_text, hu],
        Or.inr (Or.inr rfl)⟩
    | false =>
      exact Or.inr ⟨'e', sign_text e.sign ++ e.digits, by simp [exp_text, hu],
        Or.inr (Or.inl rfl)⟩

theorem starts_mark_exp_scanned (ex : Option exponent_part) : starts_mark (exp_scanned ex) := by
  cases ex with
  | none => exact Or.inl rfl
  | some e => exact Or.inr ⟨'e', _, rfl, Or.inr (Or.inl rfl)⟩

theorem starts_mark_frac (fp : Option (List Char)) (r : List Char) (hr : starts_mark r) :
    starts_mark (frac_text fp ++ r) := by
  cases fp with
  | none => simpa [frac_text] using hr
  | some f => exact Or.inr ⟨'.', f ++ r, rfl, Or.inl rfl⟩

theorem sign_text_not_digit (s : Option Bool) : ∀ c ∈ sign_text s, c = '+' ∨ c = '-' := by
  intro c hc
  cases s with
  | none => cases hc
  | some b => cases b <;> simp [sign_text] at hc <;> simp [hc]

/-- The scan over an exponent part, once a mantissa digit has been seen. -/
theorem scan_float_exp (b : Bool) (acc : List Char) (ex : Option exponent_part)
    (hex : ∀ e, ex = some e → all_digits e.digits ∧ e.digits ≠ []) :
    scan_float true b false false acc (exp_text ex) = (acc ++ exp_scanned ex, []) := by
  cases ex with
  | none => simp [exp_text, exp_scanned, scan_float_end]
  | some e =>
    obtain ⟨hd, hne⟩ := hex e rfl
    have hmark : scan_float true b false false acc (exp_text (some e)) =
        scan_float true b true true (acc ++ ['e']) (sign_text e.sign ++ e.digits) := by
      cases hu : e.upper <;> simp [exp_text, hu, scan_float, isdigit]
    have hdig : ∀ (d : Bool) (acc2 : List Char),
        scan_float true b true d acc2 e.digits = (acc2 ++ e.digits, []) := by
      intro d acc2
      have h := scan_float_digits b true e.digits [] hd true d acc2
      rw [List.append_nil] at h
      rw [h, if_neg hne, scan_float_end]
    rw [hmark]
    cases hs : e.sign with
    | none => simp [sign_text, exp_scanned, hs, hdig]
    | some sg =>
      cases sg with
      | false =>
        have : scan_float true b true true (acc ++ ['e']) (sign_text (some false) ++ e.digits) =
            scan_float true b true false (acc ++ ['e'] ++ ['+']) e.digits := by
          simp [sign_text, scan_float]
        rw [this, hdig]
        simp [exp_scanned, hs, sign_text]
      | true =>
        have : scan_float true b true true (acc ++ ['e']) (sign_text (some true) ++ e.digits) =
            scan_float true b true false (acc ++ ['e'] ++ ['-']) e.digits := by
          simp [sign_text, scan_float]
        rw [this, hdig]
        simp [exp_scanned, hs, sign_text]

/-- The scan over the fraction and exponent parts; a mantissa digit must have been seen by
the end of the fraction. -/
theorem scan_float_frac_exp (a : Bool) (acc : List Char) (fp : Option (List Char))
    (ex : Option exponent_part) (hfp : all_digits (frac_digits fp))
    (hm : a = true ∨ frac_digits fp ≠ [])
    (hex : ∀ e, ex = some e → all_digits e.digits ∧ e.digits ≠ []) :
    scan_float a false false false acc (frac_text fp ++ exp_text ex) =
      (acc ++ frac_text fp ++ exp_scanned ex, []) := by
  cases fp with
  | none =>
    have ha : a = true := by
      rcases hm with h | h
      · exact h
      · exact absurd rfl h
    subst ha
    simp [frac_text, scan_float_exp false acc ex hex]
  | some f =>
    have h := scan_float_digits true false f (exp_text ex) hfp a false (acc ++ ['.'])
    simp only [frac_text, List.cons_append, scan_float_point, h]
    split
    · rename_i hf
      have ha : a = true := by
        rcases hm with h | h
        · exact h
        · exact absurd hf h
      subst ha
      rw [scan_float_exp true _ ex hex, hf]
    · rw [scan_float_exp true _ ex hex]
      simp

theorem no_sign_head_digits (n r : List Char) (hn : all_digits n) (hr : starts_mark r) :
    no_sign_head (n ++ r) := by
  intro c cs h
  cases n with
  | nil =>
    rcases hr with rfl | ⟨x, xs, rfl, hx⟩
    · cases h
    · simp only [List.nil_append] at h
      injection h with h1 _
      subst h1
      rcases hx with rfl | rfl | rfl <;> decide
  | cons x xs =>
    injection h with h1 _
    subst h1
    obtain ⟨h1, h2, _⟩ := isdigit_not_mark x (hn x (List.mem_cons_self _ _))
    exact ⟨h1, h2⟩

theorem scan_sign_literal (s : Option Bool) (x : List Char) (hx : no_sign_head x) :
    scan_sign (sign_text s ++ x) = (sign_text s, x) := by
  cases s with
  | none =>
    cases x with
    | nil => rfl
    | cons c cs =>
      obtain ⟨h1, h2⟩ := hx c cs rfl
      simp [sign_text, scan_sign, h1, h2]
  | some b => cases b <;> simp [sign_text, scan_sign]

theorem take_sign_literal (s : Option Bool) (x : List Char) (hx : no_sign_head x) :
    take_sign (sign_text s ++ x) = (is_minus s, x) := by
  cases s with
  | none =>
    cases x with
    | nil => rfl
    | cons c cs =>
      obtain ⟨h1, h2⟩ := hx c cs rfl
      simp only [sign_text, List.nil_append]
      unfold take_sign
      split
      · rename_i h; injection h with h _; exact absurd h h2
      · rename_i h; injection h with h _; exact absurd h h1
      · rfl
  | some b => cases b <;> simp [sign_text, take_sign, is_minus]

theorem collapse_zeros_all_digits (ip : List Char) (hip : all_digits ip) :
    all_digits (collapse_zeros ip) := by
  unfold collapse_zeros
  have hd := all_digits_dropWhile (fun c => decide (c = '0')) ip hip
  intro c hc
  rcases List.mem_append.1 hc with h | h
  · split at h
    · cases h
    · simp only [List.mem_singleton] at h
      subst h
      rfl
  · exact hd c h

theorem collapse_zeros_ne_nil (ip : List Char) (hne : ip ≠ []) : collapse_zeros ip ≠ [] := by
  unfold collapse_zeros
  split
  · rename_i h0
    have h1 : ip.takeWhile (fun c => decide (c = '0')) = [] := by simpa using h0
    have h2 := List.takeWhile_append_dropWhile (fun c => decide (c = '0')) ip
    rw [h1, List.nil_append] at h2
    rw [List.nil_append, h2]
    exact hne
  · simp

/-- The scan of a well-formed decimal floating literal accumulates all of it, with leading
zeros collapsed and the exponent mark in lower case. -/
theorem extract_float_literal (d : decimal) (hw : d.well_formed) :
    extract_float d.text =
      (sign_text d.sign ++ (collapse_zeros d.int_digits ++
        (frac_text d.frac ++ exp_scanned d.exp)), []) := by
  obtain ⟨hip, hfp, hdig, hex⟩ := hw
  have hr : starts_mark (frac_text d.frac ++ exp_text d.exp) :=
    starts_mark_frac _ _ (starts_mark_exp_text _)
  have hz := starts_mark_stop _ hr (fun c => decide (c = '0')) (by decide) (by decide)
    (by decide)
  have hd := all_digits_dropWhile (fun c => decide (c = '0')) d.int_digits hip
  have htext : d.text = sign_text d.sign ++
      (d.int_digits ++ (frac_text d.frac ++ exp_text d.exp)) := by
    simp [decimal.text, List.append_assoc]
  have key : ∀ (a : Bool) (acc : List Char),
      (a = true ∨ d.int_digits.dropWhile (fun c => decide (c = '0')) ≠ [] ∨
        frac_digits d.frac ≠ []) →
      scan_float a false false false acc
          (d.int_digits.dropWhile (fun c => decide (c = '0')) ++
            (frac_text d.frac ++ exp_text d.exp)) =
        (acc ++ (d.int_digits.dropWhile (fun c => decide (c = '0')) ++
          (frac_text d.frac ++ exp_scanned d.exp)), []) := by
    intro a acc ha
    rw [scan_float_digits false false _ _ hd]
    split
    · rename_i h0
      rw [scan_float_frac_exp a acc d.frac d.exp hfp
        (by rcases ha with h | h | h
            · exact Or.inl h
            · exact absurd h0 h
            · exact Or.inr h) hex, h0]
      simp [List.append_assoc]
    · rw [scan_float_frac_exp true _ d.frac d.exp hfp (Or.inl rfl) hex]
      simp [List.append_assoc]
  unfold extract_float
  simp only [htext, scan_sign_literal d.sign _ (no_sign_head_digits _ _ hip hr),
    dropWhile_append_stop _ _ _ hz.1, takeWhile_append_stop _ _ _ hz.2]
  unfold collapse_zeros
  split
  · rename_i h0
    have h1 : d.int_digits.takeWhile (fun c => decide (c = '0')) = [] := by simpa using h0
    have h2 := List.takeWhile_append_dropWhile (fun c => decide (c = '0')) d.int_digits
    rw [h1, List.nil_append] at h2
    rw [key false _ (by
      rcases hdig with h | h
      · exact Or.inr (Or.inl (by rw [h2]; exact h))
      · exact Or.inr (Or.inr h))]
    simp
  · rw [key true _ (Or.inl rfl)]
    simp [List.append_assoc]

theorem parse_exponent_scanned (ex : Option exponent_part)
    (hex : ∀ e, ex = some e → all_digits e.digits ∧ e.digits ≠ []) :
    parse_exponent (exp_scanned ex) = some (exp_value ex) := by
  cases ex with
  | none => rfl
  | some e =>
    obtain ⟨hd, hne⟩ := hex e rfl
    have hns : no_sign_head e.digits := by
      have := no_sign_head_digits e.digits [] hd (Or.inl rfl)
      rwa [List.append_nil] at this
    have hemp : e.digits.isEmpty = false := by
      cases h : e.digits with
      | nil => exact absurd h hne
      | cons _ _ => rfl
    have hall : e.digits.all isdigit = true := List.all_eq_true.2 hd
    simp only [exp_scanned, parse_exponent, take_sign_literal e.sign _ hns, hemp, hall,
      Bool.not_true, Bool.or_self, Bool.false_eq_true, if_false, exp_value]
    cases hs : e.sign with
    | none => simp [is_minus]
    | some b => cases b <;> simp [is_minus]

/-- The conversion of the accumulated text of a literal yields its sign, mantissa and
exponent. -/
theorem strtod_all_literal (s : Option Bool) (n : List Char) (fp : Option (List Char))
    (ex : Option exponent_part) (hn : all_digits n) (hfp : all_digits (frac_digits fp))
    (hdig : n ≠ [] ∨ frac_digits fp ≠ [])
    (hex : ∀ e, ex = some e → all_digits e.digits ∧ e.digits ≠ []) :
    strtod_all (sign_text s ++ (n ++ (frac_text fp ++ exp_scanned ex))) =
      some (is_minus s, digits_val (n ++ frac_digits fp),
        exp_value ex - ((frac_digits fp).length : Int)) := by
  have hsc := starts_mark_exp_scanned ex
  have hr : starts_mark (frac_text fp ++ exp_scanned ex) := starts_mark_frac _ _ hsc
  have hs := starts_mark_stop _ hr isdigit (by decide) (by decide) (by decide)
  have hs2 := starts_mark_stop _ hsc isdigit (by decide) (by decide) (by decide)
  unfold strtod_all
  simp only [take_sign_literal s _ (no_sign_head_digits _ _ hn hr),
    takeWhile_digits n _ hn hs.2, dropWhile_digits n _ hn hs.1]
  cases fp with
  | none =>
    have hnn : n.isEmpty = false := by
      cases h : n with
      | nil =>
        rcases hdig with h1 | h1
        · exact absurd h h1
        · exact absurd rfl h1
      | cons _ _ => rfl
    cases ex with
    | none =>
      simp [frac_text, frac_digits, exp_scanned, hnn, parse_exponent, exp_value]
    | some e =>
      have hp := parse_exponent_scanned (some e) hex
      simp only [exp_scanned] at hp
      simp [frac_text, frac_digits, exp_scanned, hnn, hp]
  | some f =>
    have h1 : (f ++ exp_scanned ex).takeWhile isdigit = f := takeWhile_digits f _ hfp hs2.2
    have h2 : (f ++ exp_scanned ex).dropWhile isdigit = exp_scanned ex :=
      dropWhile_digits f _ hfp hs2.1
    have hemp : (n.isEmpty && f.isEmpty) = false := by
      rcases hdig with h | h
      · cases hh : n with
        | nil => exact absurd hh h
        | cons _ _ => rfl
      · cases hh : f with
        | nil => exact absurd hh h
        | cons _ _ => simp
    simp only [frac_text, List.cons_append, h1, h2, hemp, Bool.false_eq_true, if_false,
      parse_exponent_scanned ex hex, frac_digits]

theorem overflow_threshold_cast : (overflow_threshold : ℚ) = 2 ^ 1024 - 2 ^ 970 := by
  unfold overflow_threshold
  norm_num

theorem overflows_false_iff (m : Nat) (e : Int) :
    overflows m e = false ↔ (m : ℚ) * (10 : ℚ) ^ e < 2 ^ 1024 - 2 ^ 970 := by
  rw [← overflow_threshold_cast]
  cases e with
  | ofNat k =>
    simp only [overflows, decide_eq_false_iff_not, not_le, Int.ofNat_eq_coe, zpow_natCast]
    constructor
    · intro h
      have : ((m * 10 ^ k : ℕ) : ℚ) < (overflow_threshold : ℚ) := by exact_mod_cast h
      simpa using this
    · intro h
      have : ((m * 10 ^ k : ℕ) : ℚ) < (overflow_threshold : ℚ) := by simpa using h
      exact_mod_cast this
  | negSucc k =>
    have hpos : (0 : ℚ) < 10 ^ (k + 1) := by positivity
    simp only [overflows, decide_eq_false_iff_not, not_le, zpow_negSucc]
    rw [← div_eq_mul_inv, div_lt_iff₀ hpos]
    constructor
    · intro h
      have : ((m : ℕ) : ℚ) < ((overflow_threshold * 10 ^ (k + 1) : ℕ) : ℚ) := by
        exact_mod_cast h
      simpa using this
    · intro h
      have : ((m : ℕ) : ℚ) < ((overflow_threshold * 10 ^ (k + 1) : ℕ) : ℚ) := by
        simpa using h
      exact_mod_cast this

theorem decimal_value_eq (d : decimal) :
    d.value = dec_val (is_minus d.sign) d.mantissa d.exponent := by
  unfold decimal.value dec_val
  cases hs : d.sign with
  | none => simp [is_minus]
  | some b => cases b <;> simp [is_minus]

theorem decimal_abs_value (d : decimal) :
    |d.value| = (d.mantissa : ℚ) * (10 : ℚ) ^ d.exponent := by
  have hp : (0 : ℚ) < (10 : ℚ) ^ d.exponent := by positivity
  have hm : (0 : ℚ) ≤ (d.mantissa : ℚ) := Nat.cast_nonneg _
  unfold decimal.value
  split
  · rw [show (-1 : ℚ) * (d.mantissa : ℚ) * (10 : ℚ) ^ d.exponent
        = -((d.mantissa : ℚ) * (10 : ℚ) ^ d.exponent) by ring, abs_neg,
      abs_of_nonneg (mul_nonneg hm hp.le)]
  · rw [one_mul, abs_of_nonneg (mul_nonneg hm hp.le)]

/-- A well-formed decimal floating literal within the range of `double` reads as the real
number it denotes. -/
theorem reads_as_literal (d : decimal) (hw : d.well_formed) (hr : d.in_range) :
    reads_as d.text d.value := by
  have hw2 := hw
  obtain ⟨hip, hfp, hdig, hex⟩ := hw2
  have hn := collapse_zeros_all_digits d.int_digits hip
  have hdig2 : collapse_zeros d.int_digits ≠ [] ∨ frac_digits d.frac ≠ [] := by
    rcases hdig with h | h
    · exact Or.inl (collapse_zeros_ne_nil _ h)
    · exact Or.inr h
  have hv : digits_val (collapse_zeros d.int_digits ++ frac_digits d.frac) = d.mantissa := by
    unfold decimal.mantissa
    rw [digits_val_append, digits_val_collapse_zeros, ← digits_val_append]
  have ho : overflows d.mantissa d.exponent = false := by
    rw [overflows_false_iff, ← decimal_abs_value]
    exact hr
  unfold reads_as num_get
  simp only [extract_float_literal d hw,
    strtod_all_literal d.sign _ d.frac d.exp hn hfp hdig2 hex, hv]
  rw [show exp_value d.exp - ((frac_digits d.frac).length : Int) = d.exponent from rfl]
  simp only [ho, Bool.false_eq_true, if_false, decimal_value_eq]

theorem entry_ok_of_literal (e : entry) (h : e.literal_ok) : e.ok := by
  obtain ⟨h1, h2, h3, h4, d, hw, hr, hn, hv⟩ := h
  refine ⟨h1, h2, h3, h4, ?_⟩
  rw [hn, hv]
  exact reads_as_literal d hw hr

theorem num_get_big :
    num_get "1e309\nB 2\nC 3\n".toList = ⟨DBL_MAX, true, "\nB 2\nC 3\n".toList⟩ := by
  have hx : extract_float "1e309\nB 2\nC 3\n".toList =
      (['1', 'e', '3', '0', '9'], "\nB 2\nC 3\n".toList) := rfl
  have hs : strtod_all ['1', 'e', '3', '0', '9'] = some (false, 1, 309) := rfl
  have ho : overflows 1 309 = true := by
    show overflows 1 (Int.ofNat 309) = true
    simp only [overflows, decide_eq_true_eq, overflow_threshold]
    norm_num
  simp only [num_get, hx, hs, ho, if_true, Bool.false_eq_true, if_false]

theorem big_literal_facts :
    big_literal.text = "1e309".toList ∧ big_literal.well_formed ∧ ¬ big_literal.in_range := by
  refine ⟨rfl, ⟨?_, ?_, Or.inl (by simp [big_literal]), ?_⟩, ?_⟩
  · intro c hc; simp [big_literal] at hc; subst hc; rfl
  · intro c hc; simp [big_literal, frac_digits] at hc
  · intro e he
    simp only [big_literal, Option.some.injEq] at he
    subst he
    refine ⟨?_, by simp⟩
    intro c hc
    simp at hc
    rcases hc with rfl | rfl | rfl <;> rfl
  · unfold decimal.in_range
    rw [decimal_abs_value]
    have hm : big_literal.mantissa = 1 := rfl
    have he : big_literal.exponent = 309 := rfl
    rw [hm, he]
    norm_num

theorem literal_one_zero :
    (⟨none, ['1'], some ['0'], none⟩ : decimal).well_formed ∧
    (⟨none, ['1'], some ['0'], none⟩ : decimal).in_range ∧
    (⟨none, ['1'], some ['0'], none⟩ : decimal).value = 1 := by
  have hm : (⟨none, ['1'], some ['0'], none⟩ : decimal).mantissa = 10 := rfl
  have he : (⟨none, ['1'], some ['0'], none⟩ : decimal).exponent = -1 := rfl
  have hv : (⟨none, ['1'], some ['0'], none⟩ : decimal).value = 1 := by
    rw [decimal_value_eq, hm, he]
    norm_num [dec_val, is_minus]
  refine ⟨⟨?_, ?_, Or.inl (by simp), ?_⟩, ?_, hv⟩
  · intro c hc; simp at hc; subst hc; rfl
  · intro c hc; simp [frac_digits] at hc; subst hc; rfl
  · intro e he; cases he
  · unfold decimal.in_range
    rw [hv]
    norm_num

theorem literal_zero_zero :
    (⟨none, ['0'], some ['0'], none⟩ : decimal).well_formed ∧
    (⟨none, ['0'], some ['0'], none⟩ : decimal).in_range ∧
    (⟨none, ['0'], some ['0'], none⟩ : decimal).value = 0 := by
  have hm : (⟨none, ['0'], some ['0'], none⟩ : decimal).mantissa = 0 := rfl
  have hv : (⟨none, ['0'], some ['0'], none⟩ : decimal).value = 0 := by
    rw [decimal_value_eq, hm]
    norm_num [dec_val]
  refine ⟨⟨?_, ?_, Or.inl (by simp), ?_⟩, ?_, hv⟩
  · intro c hc; simp at hc; subst hc; rfl
  · intro c hc; simp [frac_digits] at hc; subst hc; rfl
  · intro e he; cases he
  · unfold decimal.in_range
    rw [hv]
    norm_num

theorem scenario_entries_literal_ok : ∀ e ∈ scenario_entries, e.literal_ok := by
  have h1 := literal_one_zero
  have h0 := literal_zero_zero
  intro e he
  simp only [scenario_entries, List.mem_cons, List.mem_singleton, List.not_mem_nil,
    or_false] at he
  rcases he with rfl | rfl | rfl | rfl
  · exact ⟨is_blank_nil, is_word_singleton 'A' rfl, is_blank_singleton ' ' rfl, by simp,
      _, h1.1, h1.2.1, rfl, h1.2.2.symm⟩
  · exact ⟨is_blank_singleton '\n' rfl, is_word_singleton 'B' rfl, is_blank_singleton ' ' rfl,
      by simp, _, h1.1, h1.2.1, rfl, h1.2.2.symm⟩
  · exact ⟨is_blank_singleton '\n' rfl, is_word_singleton 'C' rfl, is_blank_singleton ' ' rfl,
      by simp, _, h0.1, h0.2.1, rfl, h0.2.2.symm⟩
  · exact ⟨is_blank_singleton '\n' rfl, is_word_singleton 'D' rfl, is_blank_singleton ' ' rfl,
      by simp, _, h0.1, h0.2.1, rfl, h0.2.2.symm⟩

/-! ## The claims of the specification -/

/-- Claim C1 fails as stated: the file `h / A 1e309 / B 2 / C 3` is a header line followed by
three whitespace-separated (identifier, number) pairs, and `load_phenotypes_file` returns one
pair only, `A` with the value `DBL_MAX`: reading `1e309`, a well-formed decimal floating
literal beyond the range of `double`, raises `failbit`, which ends the loop. -/
theorem load_phenotypes_file_stops_at_overflow :
    big_literal.text = "1e309".toList ∧ big_literal.well_formed ∧
    load_phenotypes_file big_fs "big.txt" = some (["A"], [double.real DBL_MAX]) := by
  refine ⟨big_literal_facts.1, big_literal_facts.2.1, ?_⟩
  have hfail : (num_get "1e309\nB 2\nC 3\n".toList).failbit = true := by rw [num_get_big]
  have h := load_failed_number big_fs "big.txt" ['h'] [] [] ['A'] [' ']
    "1e309\nB 2\nC 3\n".toList rfl (by decide) (by intro e he; cases he)
    (by intro e he; cases he) is_blank_nil (by intro h; exact absurd rfl h)
    (is_word_singleton 'A' rfl) (is_blank_singleton ' ' rfl) (by simp)
    ⟨'1', "e309\nB 2\nC 3\n".toList, rfl, rfl⟩ hfail
  rw [h, num_get_big]
  rfl

/-- Claim C1 as the code has it.  For every phenotype file that consists of a header line
(any text without a newline, then the newline) followed by `n ≥ 0` whitespace-separated
(identifier, number) pairs and trailing whitespace, in which every number is a decimal
floating literal (optional sign, digits with an optional point, optional exponent part) of a
magnitude below `2^1024 - 2^970`, the range of `double`, `load_phenotypes_file` returns
exactly the `n` identifiers and the `n` values the literals denote, in the order of the file;
and the result is the same for every other header line put in front of the same pairs. -/
theorem load_phenotypes_file_reads_pairs (fs : file_system) (filename : String)
    (header : List Char) (es : List entry) (trail : List Char)
    (hfile : fs filename = some (header ++ '\n' :: (body es ++ trail)))
    (hheader : '\n' ∉ header) (hok : ∀ e ∈ es, e.literal_ok) (hsep : separated es)
    (htrail : is_blank trail) :
    load_phenotypes_file fs filename = some (names es, values es) ∧
    ∀ (fs2 : file_system) (header2 : List Char), '\n' ∉ header2 →
      fs2 filename = some (header2 ++ '\n' :: (body es ++ trail)) →
      load_phenotypes_file fs2 filename = load_phenotypes_file fs filename := by
  have hok2 : ∀ e ∈ es, e.ok := fun e he => entry_ok_of_literal e (hok e he)
  have h1 := load_well_formed fs filename header es trail hfile hheader hok2 hsep htrail
  refine ⟨h1, fun fs2 header2 hh2 hfile2 => ?_⟩
  rw [h1, load_well_formed fs2 filename header2 es trail hfile2 hh2 hok2 hsep htrail]

/-- Claim C1 as the code has it, at the scenario of the specification: a header line followed
by `A 1.0`, `B 1.0`, `C 0.0`, `D 0.0` yields the identifiers `A, B, C, D` and the values
`1, 1, 0, 0`. -/
theorem load_phenotypes_file_reads_pairs_witness :
    load_phenotypes_file scenario_fs "phenotypes.txt" =
      some (["A", "B", "C", "D"],
        [double.real 1, double.real 1, double.real 0, double.real 0]) :=
  (load_phenotypes_file_reads_pairs scenario_fs "phenotypes.txt"
    "accession_id\tphenotype_value".toList scenario_entries ['\n'] rfl (by decide)
    scenario_entries_literal_ok scenario_entries_separated
    (is_blank_singleton '\n' rfl)).1

/-- Claim C2 fails as stated: on the file `id value / A 1.0 / B abc / C 0.0`, whose second
numeric field is malformed, `load_phenotypes_file` signals no error; it returns the phenotype
list `[(A, 1), (B, 0)]`. -/
theorem load_phenotypes_file_malformed_returns :
    load_phenotypes_file malformed_fs "bad.txt" =
      some (["A", "B"], [double.real 1, double.real 0]) := by
  have h : load_phenotypes_file malformed_fs "bad.txt" =
      some (["A", "B"], [double.real (dec_val false 10 (-1)), double.real 0]) := rfl
  rw [h]
  norm_num [dec_val]

/-- Claim C2 as the code has it.  When the text after an identifier `wd` is one on which
`fin >> value` raises `failbit`, `load_phenotypes_file` still returns a phenotype list: the
pairs read before `wd`, followed by `wd` with the value the failed extraction stored, which is
`0` when the text is malformed (no number can be read from it). -/
theorem load_phenotypes_file_failed_field (fs : file_system) (filename : String)
    (header : List Char) (es : List entry) (pre wd sep junk : List Char)
    (hfile : fs filename = some (header ++ '\n' :: (body es ++ (pre ++ (wd ++ (sep ++ junk))))))
    (hheader : '\n' ∉ header) (hok : ∀ e ∈ es, e.ok) (hsep : separated es)
    (hpre : is_blank pre) (hne : es ≠ [] → pre ≠ []) (hwd : is_word wd)
    (hsp : is_blank sep) (hspne : sep ≠ []) (hjunk : starts_token junk)
    (hfail : (num_get junk).failbit = true) :
    load_phenotypes_file fs filename =
      some (names es ++ [String.mk wd], values es ++ [double.real (num_get junk).value]) ∧
    (cannot_read junk → (num_get junk).value = 0) :=
  ⟨load_failed_number fs filename header es pre wd sep junk hfile hheader hok hsep hpre hne hwd
    hsp hspne hjunk hfail, fun h => (num_get_cannot_read junk h).2⟩

/-- Claim C2 as the code has it, at the file `id value / A 1.0 / B abc / C 0.0`: reading a
value from `abc` raises `failbit`, and the list returned is `[(A, 1), (B, 0)]`. -/
theorem load_phenotypes_file_failed_field_witness :
    (num_get "abc\nC 0.0\n".toList).failbit = true ∧
    load_phenotypes_file malformed_fs "bad.txt" =
      some (["A", "B"], [double.real 1, double.real 0]) := by
  have hfail := (num_get_cannot_read _ cannot_read_abc).1
  have h := load_phenotypes_file_failed_field malformed_fs "bad.txt" "id value".toList
    [⟨[], ['A'], [' '], ['1', '.', '0'], 1⟩] ['\n'] ['B'] [' '] "abc\nC 0.0\n".toList rfl
    (by decide) (by intro e he; simp at he; subst he; exact entry_A_ok)
    (by intro e he; simp at he) (is_blank_singleton '\n' rfl) (by simp)
    (is_word_singleton 'B' rfl) (is_blank_singleton ' ' rfl) (by simp)
    ⟨'a', "bc\nC 0.0\n".toList, rfl, rfl⟩ hfail
  exact ⟨hfail, (h.2 cannot_read_abc) ▸ h.1⟩

/-- Claim C3, the code at the failing input: when the constructor of `kmer_multipleDB` throws
an object that is not derived from `std::exception`, the catch-all handler of lines 138–140
prints its message and `main` returns exit code `0`, not `1`. -/
theorem main_unknown_exception_exits_zero :
    main scenario_fs odd_throw_env (Except.ok scenario_vm) =
      some ⟨[event.cerr "phenotype file: phenotypes.txt.\n",
             event.kmer_multipleDB default_DBs_path ["A", "B", "C", "D"] default_kmers_file,
             event.cerr "Exception of unknown type!\n"], 0⟩ := rfl

/-- Claim C4 fails as stated: when the file named by `phenotype_file` cannot be opened, `main`
does not abort; it constructs the multi-sample database with an empty accession list, loads
the k-mers, writes the output and returns exit code `0`. -/
theorem main_unopenable_file_runs_on :
    main (fun _ => none) (quiet_env 0) (Except.ok ⟨false, some "missing.txt", none, none⟩) =
      some ⟨[event.cerr "phenotype file: missing.txt.\n",
             event.kmer_multipleDB default_DBs_path [] default_kmers_file,
             event.load_kmer_and_score_raw_file raw_file_path,
             event.load_kmers,
             event.get_hashtable_size,
             event.cerr "loaded kmers enriched (hashtable size = 0)\n",
             event.output_plink_bed_file "plink_test1",
             event.output_kmers_textual], 0⟩ := rfl

/-- Claim C4 as the code has it.  When the option `phenotype_file` is not supplied, `main`
returns before any processing, without calling any collaborator: with exit code `1`, or with
exit code `0` when `help` was asked for.  When the named file cannot be opened, `main` does
not abort: the run goes on and constructs `kmer_multipleDB` with an empty accession list. -/
theorem main_missing_phenotype_file :
    (∀ (fs : file_system) (env : collaborators) (vm : variables_map),
      vm.phenotype_file = none →
      ∃ out, main fs env (Except.ok vm) = some out ∧
        (∀ x ∈ out.trace, x.is_call = false) ∧
        out.exit_code = if vm.help then 0 else 1) ∧
    (∀ (fs : file_system) (env : collaborators) (vm : variables_map) (filename : String),
      vm.help = false → vm.phenotype_file = some filename → fs filename = none →
      ∃ out, main fs env (Except.ok vm) = some out ∧
        event.kmer_multipleDB (vm.DBs_path.getD default_DBs_path) []
          (vm.kmers_file.getD default_kmers_file) ∈ out.trace) := by
  constructor
  · intro fs env vm hfile
    cases hhelp : vm.help with
    | true =>
      refine ⟨⟨[event.cout_desc], 0⟩, ?_, ?_, rfl⟩
      · simp [main, main_try, hhelp]
      · intro x hx; simp at hx; subst hx; rfl
    | false =>
      refine ⟨⟨[event.cout "Need to specify the phenotype file\n"], 1⟩, ?_, ?_, rfl⟩
      · simp [main, main_try, hhelp, hfile]
      · intro x hx; simp at hx; subst hx; rfl
  · intro fs env vm filename hhelp hfile hnone
    obtain ⟨out, hout⟩ := main_finishes fs env (Except.ok vm)
    refine ⟨out, hout, ?_⟩
    obtain ⟨r, hr, htr⟩ := main_trace fs env _ out hout
    have hmem : event.kmer_multipleDB (vm.DBs_path.getD default_DBs_path) []
        (vm.kmers_file.getD default_kmers_file) ∈ r.1 := by
      simp only [main_try, hhelp, hfile, load_unopened fs filename hnone, Bool.false_eq_true,
        if_false, Option.some.injEq] at hr
      subst hr
      refine mem_call_self _ _ _ _ (call_grows env _ (fun _ t2 => call env t2 _ _) fun _ =>
        call_grows env _ (fun _ t3 => call env t3 _ _) fun _ =>
        call_grows env _ (fun t3 t4 => call env (t4 ++ [event.cerr _]) _ _) fun t3 => ?_)
      exact grows_after _ (fun t5 => call env t5 (event.output_plink_bed_file "plink_test1")
        fun t6 => call env t6 event.output_kmers_textual fun t7 => (t7, flow.fell_through))
        (call_grows env _ (fun _ t6 => call env t6 _ _) fun _ =>
          call_grows env _ (fun _ t7 => (t7, flow.fell_through)) fun _ _ _ hx => hx)
    rcases htr with e | ⟨s, e⟩
    · rw [e]; exact hmem
    · rw [e]; exact List.mem_append_left _ hmem

/-- Claim C4 as the code has it, at a run without the option and at a run that names a file
that cannot be opened. -/
theorem main_missing_phenotype_file_witness :
    (∃ out, main scenario_fs (quiet_env 0) (Except.ok ⟨false, none, none, none⟩) = some out ∧
      (∀ x ∈ out.trace, x.is_call = false) ∧
      out.exit_code = if (⟨false, none, none, none⟩ : variables_map).help then 0 else 1) ∧
    (∃ out, main (fun _ => none) (quiet_env 0)
        (Except.ok ⟨false, some "missing.txt", none, none⟩) = some out ∧
      event.kmer_multipleDB default_DBs_path [] default_kmers_file ∈ out.trace) :=
  ⟨main_missing_phenotype_file.1 scenario_fs (quiet_env 0) ⟨false, none, none, none⟩ rfl,
   main_missing_phenotype_file.2 (fun _ => none) (quiet_env 0)
    ⟨false, some "missing.txt", none, none⟩ "missing.txt" rfl rfl rfl⟩

/-- Claim C5.  In every run of `main` that reaches the construction of the multi-sample
database, the accession list handed to `kmer_multipleDB` is exactly the identifier vector that
`load_phenotypes_file` returns for the phenotype file of the command line. -/
theorem main_accessions_are_loaded_identifiers (fs : file_system) (env : collaborators)
    (parsed : Except thrown variables_map) (out : outcome) (d : String) (ids : List String)
    (k : String) (hrun : main fs env parsed = some out)
    (hev : event.kmer_multipleDB d ids k ∈ out.trace) :
    ∃ vm filename p, parsed = Except.ok vm ∧ vm.phenotype_file = some filename ∧
      load_phenotypes_file fs filename = some p ∧ ids = p.1 := by
  refine main_events fs env parsed out hrun
    (fun x => ∀ d ids k, x = event.kmer_multipleDB d ids k →
      ∃ vm filename p, parsed = Except.ok vm ∧ vm.phenotype_file = some filename ∧
        load_phenotypes_file fs filename = some p ∧ ids = p.1)
    ?_ ?_ _ hev d ids k rfl
  · intro x hx d ids k e
    subst e
    cases hx
  · intro vm filename p hp _ hfile hload
    refine ⟨?_, ?_, ?_, ?_, ?_, ?_⟩
    · intro d ids k e
      injection e with _ e2 _
      exact ⟨vm, filename, p, hp, hfile, hload, e2.symm⟩
    all_goals (intro d ids k e; cases e)

/-- Claim C5 at the scenario of the specification. -/
theorem main_accessions_are_loaded_identifiers_witness :
    ∃ vm filename p, (Except.ok scenario_vm : Except thrown variables_map) = Except.ok vm ∧
      vm.phenotype_file = some filename ∧
      load_phenotypes_file scenario_fs filename = some p ∧ ["A", "B", "C", "D"] = p.1 :=
  main_accessions_are_loaded_identifiers scenario_fs (quiet_env 4) (Except.ok scenario_vm)
    ⟨full_trace "phenotypes.txt" default_DBs_path default_kmers_file ["A", "B", "C", "D"] 4, 0⟩
    default_DBs_path ["A", "B", "C", "D"] default_kmers_file main_scenario_run
    (by simp [full_trace])

/-- Claim C6 fails as stated: two runs on different phenotype files, with different values
for every option the program accepts, both pass the same name `plink_test1` to
`output_plink_bed_file`. -/
theorem main_output_name_same_for_all_options :
    main scenario_fs (quiet_env 4)
        (Except.ok ⟨false, some "phenotypes.txt", some "/data/run1/", some "kmers_a"⟩) =
      some ⟨[event.cerr "phenotype file: phenotypes.txt.\n",
             event.kmer_multipleDB "/data/run1/" ["A", "B", "C", "D"] "kmers_a",
             event.load_kmer_and_score_raw_file raw_file_path,
             event.load_kmers,
             event.get_hashtable_size,
             event.cerr "loaded kmers enriched (hashtable size = 4)\n",
             event.output_plink_bed_file "plink_test1",
             event.output_kmers_textual], 0⟩ ∧
    main dup_fs (quiet_env 4)
        (Except.ok ⟨false, some "dup.txt", some "/data/run2/", some "kmers_b"⟩) =
      some ⟨[event.cerr "phenotype file: dup.txt.\n",
             event.kmer_multipleDB "/data/run2/" ["A", "A"] "kmers_b",
             event.load_kmer_and_score_raw_file raw_file_path,
             event.load_kmers,
             event.get_hashtable_size,
             event.cerr "loaded kmers enriched (hashtable size = 4)\n",
             event.output_plink_bed_file "plink_test1",
             event.output_kmers_textual], 0⟩ := ⟨rfl, rfl⟩

/-- Claim C6 as the code has it.  The name `main` passes to `output_plink_bed_file` is the
constant `plink_test1`, in every run and whatever the command line. -/
theorem main_output_name_constant (fs : file_system) (env : collaborators)
    (parsed : Except thrown variables_map) (out : outcome)
    (hrun : main fs env parsed = some out) :
    ∀ base_name, event.output_plink_bed_file base_name ∈ out.trace →
      base_name = "plink_test1" := by
  intro base_name hev
  refine main_events fs env parsed out hrun
    (fun x => ∀ b, x = event.output_plink_bed_file b → b = "plink_test1")
    ?_ ?_ _ hev base_name rfl
  · intro x hx b e
    subst e
    cases hx
  · intro vm filename p _ _ _ _
    refine ⟨?_, ?_, ?_, ?_, ?_, ?_⟩
    · intro b e; cases e
    · intro b e; cases e
    · intro b e; cases e
    · intro b e; cases e
    · intro b e; injection e with e1; exact e1.symm
    · intro b e; cases e

/-- Claim C6 as the code has it, at the scenario of the specification: the run reaches
`output_plink_bed_file`, and with the name `plink_test1`. -/
theorem main_output_name_constant_witness :
    event.output_plink_bed_file "plink_test1" ∈
      full_trace "phenotypes.txt" default_DBs_path default_kmers_file ["A", "B", "C", "D"] 4 ∧
    ∀ base_name, event.output_plink_bed_file base_name ∈
        full_trace "phenotypes.txt" default_DBs_path default_kmers_file ["A", "B", "C", "D"] 4 →
      base_name = "plink_test1" :=
  ⟨by simp [full_trace],
   main_output_name_constant scenario_fs (quiet_env 4) (Except.ok scenario_vm)
    ⟨full_trace "phenotypes.txt" default_DBs_path default_kmers_file ["A", "B", "C", "D"] 4, 0⟩
    main_scenario_run⟩

/-- Claim C7 fails as stated: on a file that names accession `A` twice,
`load_phenotypes_file` returns the identifier vector `[A, A]`. -/
theorem load_phenotypes_file_keeps_duplicates :
    load_phenotypes_file dup_fs "dup.txt" =
      some (["A", "A"], [double.real 1, double.real 0]) ∧
    ¬ (["A", "A"] : List String).Nodup := by
  have h : load_phenotypes_file dup_fs "dup.txt" =
      some (["A", "A"], [double.real (dec_val false 10 (-1)),
        double.real (dec_val false 0 (-1))]) := rfl
  rw [h]
  constructor
  · norm_num [dec_val]
  · decide

/-- Claim C7 as the code has it.  On a well-formed phenotype file the identifier vector that
`load_phenotypes_file` returns is free of duplicates exactly when the identifiers of the file
are pairwise distinct: duplicates are neither rejected nor removed. -/
theorem load_phenotypes_file_nodup_iff (fs : file_system) (filename : String)
    (header : List Char) (es : List entry) (trail : List Char)
    (hfile : fs filename = some (header ++ '\n' :: (body es ++ trail)))
    (hheader : '\n' ∉ header) (hok : ∀ e ∈ es, e.ok) (hsep : separated es)
    (htrail : is_blank trail) :
    ∃ p, load_phenotypes_file fs filename = some p ∧
      (p.1.Nodup ↔ (es.map entry.id).Nodup) :=
  ⟨_, load_well_formed fs filename header es trail hfile hheader hok hsep htrail,
    names_nodup_iff es⟩

/-- Claim C7 as the code has it, at the scenario of the specification. -/
theorem load_phenotypes_file_nodup_iff_witness :
    ∃ p, load_phenotypes_file scenario_fs "phenotypes.txt" = some p ∧
      (p.1.Nodup ↔ (scenario_entries.map entry.id).Nodup) :=
  load_phenotypes_file_nodup_iff scenario_fs "phenotypes.txt"
    "accession_id\tphenotype_value".toList scenario_entries ['\n'] rfl (by decide)
    scenario_entries_ok scenario_entries_separated (is_blank_singleton '\n' rfl)

/-- Claim C8.  For every file system and file name (a well-formed, malformed or empty file,
a file that cannot be opened, a file that ends after an identifier), `load_phenotypes_file`
returns, and the two vectors it returns have the same length. -/
theorem load_phenotypes_file_same_length (fs : file_system) (filename : String) :
    ∃ p, load_phenotypes_file fs filename = some p ∧ p.1.length = p.2.length := by
  obtain ⟨p, hp⟩ := load_phenotypes_file_finishes fs filename
  exact ⟨p, hp, read_pairs_lengths _ _ _ _ _ _ hp rfl⟩

/-- Claim C9 fails as stated: on the file `id value / A 1.5 / B`, which ends right after the
identifier `B`, `load_phenotypes_file` returns `[(A, 3/2), (B, 3/2)]`: `B` is stored with the
value read for `A`, not with `0`. -/
theorem load_phenotypes_file_stale_value :
    load_phenotypes_file cut_fs "cut.txt" =
      some (["A", "B"], [double.real (3 / 2), double.real (3 / 2)]) ∧
    load_phenotypes_file cut_fs "cut.txt" ≠
      some (["A", "B"], [double.real (3 / 2), double.real 0]) := by
  have h : load_phenotypes_file cut_fs "cut.txt" =
      some (["A", "B"], [double.real (dec_val false 15 (-1)),
        double.real (dec_val false 15 (-1))]) := rfl
  rw [h]
  constructor
  · norm_num [dec_val]
  · norm_num [dec_val]

/-- Claim C9 as the code has it.  `load_phenotypes_file` signals no error when no number can
be read after an identifier `wd`.  (1) When the text after `wd` is malformed, it returns the
pairs read before `wd` followed by `(wd, 0)`, whatever else the file holds after that point.
(2) When the file ends after `wd` (or holds only whitespace after it), it returns the pairs
read before `wd` followed by `wd` with the value of the pair before it, and with the
indeterminate content of the uninitialised variable when `wd` is the first identifier.
(3) A file without any newline and (4) a file that cannot be opened yield the empty phenotype
list. -/
theorem load_phenotypes_file_unreadable_number :
    (∀ (fs : file_system) (filename : String) (header : List Char) (es : List entry)
        (pre wd sep junk : List Char),
      fs filename = some (header ++ '\n' :: (body es ++ (pre ++ (wd ++ (sep ++ junk))))) →
      '\n' ∉ header → (∀ e ∈ es, e.ok) → separated es → is_blank pre →
      (es ≠ [] → pre ≠ []) → is_word wd → is_blank sep → sep ≠ [] → starts_token junk →
      cannot_read junk →
      load_phenotypes_file fs filename =
        some (names es ++ [String.mk wd], values es ++ [double.real 0])) ∧
    (∀ (fs : file_system) (filename : String) (header : List Char) (es : List entry)
        (pre wd trail : List Char),
      fs filename = some (header ++ '\n' :: (body es ++ (pre ++ (wd ++ trail)))) →
      '\n' ∉ header → (∀ e ∈ es, e.ok) → separated es → is_blank pre →
      (es ≠ [] → pre ≠ []) → is_word wd → is_blank trail →
      load_phenotypes_file fs filename =
        some (names es ++ [String.mk wd],
          values es ++ [last_value double.indeterminate es])) ∧
    (∀ (fs : file_system) (filename : String) (content : List Char),
      fs filename = some content → '\n' ∉ content →
      load_phenotypes_file fs filename = some ([], [])) ∧
    (∀ (fs : file_system) (filename : String), fs filename = none →
      load_phenotypes_file fs filename = some ([], [])) := by
  refine ⟨?_, ?_, load_no_newline, load_unopened⟩
  · intro fs filename header es pre wd sep junk hfile hh hok hsep hpre hne hwd hsp hspne hjunk hbad
    have h := num_get_cannot_read junk hbad
    rw [load_failed_number fs filename header es pre wd sep junk hfile hh hok hsep hpre hne hwd
      hsp hspne hjunk h.1, h.2]
  · intro fs filename header es pre wd trail hfile hh hok hsep hpre hne hwd htrail
    exact load_lone_word fs filename header es pre wd trail hfile hh hok hsep hpre hne hwd htrail

/-- Claim C9 as the code has it, at a malformed field, at a file that ends after an
identifier, at a file of one line and at a file that does not exist. -/
theorem load_phenotypes_file_unreadable_number_witness :
    load_phenotypes_file malformed_fs "bad.txt" =
      some (["A", "B"], [double.real 1, double.real 0]) ∧
    load_phenotypes_file cut_fs "cut.txt" =
      some (["A", "B"], [double.real (3 / 2), double.real (3 / 2)]) ∧
    load_phenotypes_file one_line_fs "one.txt" = some ([], []) ∧
    load_phenotypes_file one_line_fs "absent.txt" = some ([], []) :=
  ⟨load_phenotypes_file_unreadable_number.1 malformed_fs "bad.txt" "id value".toList
      [⟨[], ['A'], [' '], ['1', '.', '0'], 1⟩] ['\n'] ['B'] [' '] "abc\nC 0.0\n".toList rfl
      (by decide) (by intro e he; simp at he; subst he; exact entry_A_ok)
      (by intro e he; simp at he) (is_blank_singleton '\n' rfl) (by simp)
      (is_word_singleton 'B' rfl) (is_blank_singleton ' ' rfl) (by simp)
      ⟨'a', "bc\nC 0.0\n".toList, rfl, rfl⟩ cannot_read_abc,
   load_phenotypes_file_unreadable_number.2.1 cut_fs "cut.txt" "id value".toList
      [⟨[], ['A'], [' '], ['1', '.', '5'], 3 / 2⟩] ['\n'] ['B'] [] rfl
      (by decide)
      (by intro e he; simp at he; subst he
          exact ⟨is_blank_nil, is_word_singleton 'A' rfl, is_blank_singleton ' ' rfl,
            by simp, reads_as_three_halves⟩)
      (by intro e he; simp at he) (is_blank_singleton '\n' rfl) (by simp)
      (is_word_singleton 'B' rfl) is_blank_nil,
   load_phenotypes_file_unreadable_number.2.2.1 one_line_fs "one.txt" "A 1.0 B 0.0".toList rfl
      (by decide),
   load_phenotypes_file_unreadable_number.2.2.2 one_line_fs "absent.txt" rfl⟩

/-- Claim C10.  Two runs of `main` with the same command line and the same collaborators,
on file systems whose phenotype files yield the same identifier vector, take the same steps
with the same arguments and return the same exit code, whatever the phenotype values; and
every collaborator call of a run is one of the six calls of lines 108–129, none of which
receives the phenotype values. -/
theorem main_ignores_phenotype_values (fs1 fs2 : file_system) (env : collaborators)
    (parsed : Except thrown variables_map)
    (hids : ∀ vm filename, parsed = Except.ok vm → vm.phenotype_file = some filename →
      (load_phenotypes_file fs1 filename).map Prod.fst =
        (load_phenotypes_file fs2 filename).map Prod.fst) :
    main fs1 env parsed = main fs2 env parsed ∧
    ∀ out, main fs1 env parsed = some out → ∀ x ∈ out.trace, x.is_call = true →
      (∃ d ids k, x = event.kmer_multipleDB d ids k) ∨
      x = event.load_kmer_and_score_raw_file raw_file_path ∨ x = event.load_kmers ∨
      x = event.get_hashtable_size ∨ x = event.output_plink_bed_file "plink_test1" ∨
      x = event.output_kmers_textual := by
  constructor
  · have htry : main_try fs1 env parsed = main_try fs2 env parsed := by
      cases parsed with
      | error e => rfl
      | ok vm =>
        cases hhelp : vm.help with
        | true => simp [main_try, hhelp]
        | false =>
          cases hfile : vm.phenotype_file with
          | none => simp [main_try, hhelp, hfile]
          | some filename =>
            have h := hids vm filename rfl hfile
            obtain ⟨p1, hp1⟩ := load_phenotypes_file_finishes fs1 filename
            obtain ⟨p2, hp2⟩ := load_phenotypes_file_finishes fs2 filename
            rw [hp1, hp2] at h
            simp only [Option.map_some', Option.some.injEq] at h
            simp only [main_try, hhelp, hfile, hp1, hp2, h]
    unfold main
    rw [htry]
  · intro out hout
    refine main_events fs1 env parsed out hout
      (fun x => x.is_call = true →
        (∃ d ids k, x = event.kmer_multipleDB d ids k) ∨
        x = event.load_kmer_and_score_raw_file raw_file_path ∨ x = event.load_kmers ∨
        x = event.get_hashtable_size ∨ x = event.output_plink_bed_file "plink_test1" ∨
        x = event.output_kmers_textual) ?_ ?_
    · intro x hx hc
      rw [hx] at hc
      cases hc
    · intro vm filename p _ _ _ _
      exact ⟨fun _ => Or.inl ⟨_, _, _, rfl⟩, fun _ => Or.inr (Or.inl rfl),
        fun _ => Or.inr (Or.inr (Or.inl rfl)), fun _ => Or.inr (Or.inr (Or.inr (Or.inl rfl))),
        fun _ => Or.inr (Or.inr (Or.inr (Or.inr (Or.inl rfl)))),
        fun _ => Or.inr (Or.inr (Or.inr (Or.inr (Or.inr rfl))))⟩

/-- Claim C10 at two phenotype files with the same accessions and different values. -/
theorem main_ignores_phenotype_values_witness :
    (load_phenotypes_file scenario_fs "phenotypes.txt").map Prod.snd ≠
      (load_phenotypes_file other_values_fs "phenotypes.txt").map Prod.snd ∧
    main scenario_fs (quiet_env 4) (Except.ok scenario_vm) =
      main other_values_fs (quiet_env 4) (Except.ok scenario_vm) ∧
    ∀ out, main scenario_fs (quiet_env 4) (Except.ok scenario_vm) = some out →
      ∀ x ∈ out.trace, x.is_call = true →
      (∃ d ids k, x = event.kmer_multipleDB d ids k) ∨
      x = event.load_kmer_and_score_raw_file raw_file_path ∨ x = event.load_kmers ∨
      x = event.get_hashtable_size ∨ x = event.output_plink_bed_file "plink_test1" ∨
      x = event.output_kmers_textual :=
  ⟨other_values_differ,
   main_ignores_phenotype_values scenario_fs other_values_fs (quiet_env 4)
    (Except.ok scenario_vm)
    (by intro vm filename h1 h2
        cases h1
        cases h2
        rw [scenario_load, other_values_load]
        rfl)⟩

end CorrelateKmers
